import Mathlib

/-!
Verification of the claude-code-vectordb reference implementation.

The definitions below are a shallow embedding of the TypeScript sources
(scripts/ingest-docs.ts together with the client library src/lib/client.ts
and src/lib/types.ts).  JavaScript strings are modelled as lists of
characters, JavaScript numbers that the code uses as integral counters are
modelled as Nat or Int, and similarity scores and vector components are
modelled as rationals.  Loops whose termination depends on runtime values
are modelled with an explicit fuel parameter so that non-termination of the
source loop is observable as the fueled model returning none for every
fuel bound.
-/

namespace VectorDB

/-! ## Chunker: createChunks (scripts/ingest-docs.ts, lines 57-76) -/

/-- Model of the JavaScript slice operation on a list of characters:
negative indices count from the end and both indices are clamped to the
valid range. -/
def jsSlice (l : List Char) (s e : Int) : List Char :=
  let len : Int := l.length
  let s1 := if s < 0 then max (len + s) 0 else min s len
  let e1 := if e < 0 then max (len + e) 0 else min e len
  (l.drop s1.toNat).take (e1 - s1).toNat

/-- The while loop of createChunks, with explicit fuel.  Each iteration
pushes the slice from startIndex to endIndex, stops when endIndex reaches
the end of the text, and otherwise advances startIndex by
chunkSize - overlap (an Int, since the source does not guard against
overlap exceeding chunkSize). -/
def createChunksGo (text : List Char) (chunkSize overlap : Nat) :
    Nat → Int → List (List Char) → Option (List (List Char))
  | 0, _, _ => none
  | fuel + 1, startIndex, chunks =>
    if startIndex < (text.length : Int) then
      let endIndex : Int := min (startIndex + (chunkSize : Int)) (text.length : Int)
      let chunks1 := chunks ++ [jsSlice text startIndex endIndex]
      if (text.length : Int) ≤ endIndex then some chunks1
      else createChunksGo text chunkSize overlap fuel
        (startIndex + ((chunkSize : Int) - (overlap : Int))) chunks1
    else some chunks

/-- Embedding of createChunks.  The source returns [text] when the text is
falsy (empty) or fits in one chunk, and otherwise runs the while loop; the
fuel text.length + 1 is enough for every terminating run of the source
loop, so a none result means the source loop does not terminate. -/
def createChunks (text : List Char) (chunkSize overlap : Nat) : Option (List (List Char)) :=
  if text = [] ∨ text.length ≤ chunkSize then some [text]
  else createChunksGo text chunkSize overlap (text.length + 1) 0 []

/-- Reference form of the chunk list produced by a terminating run: the
chunk starting at start, followed by the chunks from start + (s1 + 1).
The advance step is encoded as s1 + 1 so that it is strictly positive. -/
def chunksFrom (text : List Char) (chunkSize s1 : Nat) (start : Nat) : List (List Char) :=
  if start + chunkSize < text.length then
    (text.drop start).take chunkSize :: chunksFrom text chunkSize s1 (start + (s1 + 1))
  else [(text.drop start).take chunkSize]
termination_by text.length - start
decreasing_by omega

/-! ## Metadata normalizer: inferCategory and inferPriority
(scripts/ingest-docs.ts, lines 81-135).  The source first computes
path.relative(docs, filePath).toLowerCase(); path.relative is an external
library call, so the embedded functions take the relative path as input and
apply the lowercasing themselves (Char.toLower agrees with the JavaScript
toLowerCase on the ASCII paths these functions receive). -/

/-- Model of the JavaScript toLowerCase (on the ASCII characters appearing
in paths it agrees with the full Unicode lowering). -/
def toLowerCase (s : String) : String := ⟨s.data.map Char.toLower⟩

/-- Model of the JavaScript String.prototype.includes substring test. -/
def strContains (s pat : String) : Bool :=
  s.data.tails.any (fun t => pat.data.isPrefixOf t)

/-- Model of the JavaScript String.prototype.split on a one-character
separator: splitting the empty string yields one empty segment, and every
occurrence of the separator ends a segment. -/
def splitOnChar (sep : Char) : List Char → List (List Char)
  | [] => [[]]
  | c :: rest =>
    let r := splitOnChar sep rest
    if c = sep then [] :: r
    else
      match r with
      | [] => [[c]]
      | g :: gs => (c :: g) :: gs

/-- Embedding of inferCategory, lines 81-107: the ordered substring checks,
then the first path.sep-separated segment, then the general fallback. -/
def inferCategory (relativePath : String) : String :=
  let rp := toLowerCase relativePath
  if strContains rp "architecture" then "architecture"
  else if strContains rp "chatbot" then "chatbot"
  else if strContains rp "design" then "design"
  else if strContains rp "implementation" then "implementation-plans"
  else if strContains rp "roadmap" then "roadmaps"
  else if strContains rp "research" then "research"
  else if strContains rp "testing" then "testing"
  else if strContains rp "audit" then "audits"
  else if strContains rp "eval" then "evaluations"
  else if strContains rp "css" || strContains rp "style" then "styling"
  else if strContains rp "animation" then "animation"
  else if strContains rp "migration" then "migrations"
  else if strContains rp "content" then "content"
  else if strContains rp "feature" then "features"
  else if strContains rp "_archive" then "archive"
  else
    let dirs := (splitOnChar '/' rp.data).map (fun cs => String.mk cs)
    if h : 0 < dirs.length then dirs.get ⟨0, h⟩ else "general"

/-- Embedding of inferPriority, lines 112-135. -/
def inferPriority (relativePath : String) : Nat :=
  let rp := toLowerCase relativePath
  if strContains rp "claude.md" then 100
  else if strContains rp "readme" then 95
  else if strContains rp "current" then 95
  else if strContains rp "quick-reference" then 90
  else if strContains rp "implementation-plan" then 85
  else if strContains rp "architecture" then 80
  else if strContains rp "design" then 75
  else if strContains rp "roadmap" then 75
  else if strContains rp "testing" then 70
  else if strContains rp "_archive" then 30
  else if strContains rp "old" then 35
  else if strContains rp "deprecated" then 35
  else 60

/-- The category checks of inferCategory in source order: patterns of each
check together with the category the check returns. -/
def categoryChecks : List (List String × String) :=
  [(["architecture"], "architecture"), (["chatbot"], "chatbot"), (["design"], "design"),
   (["implementation"], "implementation-plans"), (["roadmap"], "roadmaps"),
   (["research"], "research"), (["testing"], "testing"), (["audit"], "audits"),
   (["eval"], "evaluations"), (["css", "style"], "styling"), (["animation"], "animation"),
   (["migration"], "migrations"), (["content"], "content"), (["feature"], "features"),
   (["_archive"], "archive")]

/-- The priority checks of inferPriority in source order. -/
def priorityChecks : List (List String × Nat) :=
  [(["claude.md"], 100), (["readme"], 95), (["current"], 95), (["quick-reference"], 90),
   (["implementation-plan"], 85), (["architecture"], 80), (["design"], 75),
   (["roadmap"], 75), (["testing"], 70), (["_archive"], 30), (["old"], 35),
   (["deprecated"], 35)]

/-- The result of the first check, in order, one of whose patterns occurs
in the given (already lowercased) path. -/
def firstMatch {α : Type} (checks : List (List String × α)) (rp : String) : Option α :=
  (checks.find? (fun pc => pc.1.any (fun pat => strContains rp pat))).map Prod.snd

/-- Running an ordered check chain: the result of the first check one of
whose patterns matches, or the fallback when none matches. -/
def chainRun {α : Type} (checks : List (List String × α)) (rp : String) (fallback : α) : α :=
  match checks with
  | [] => fallback
  | (pats, res) :: rest =>
    if pats.any (fun pat => strContains rp pat) then res else chainRun rest rp fallback

/-! ## Metadata values and sanitizeMetadata (src/lib/client.ts,
lines 574-595).  JavaScript metadata values are modelled by a closed
inductive: null and undefined are both modelled by vNull, arrays of strings
by vArr, Date objects by the ISO string they print as (toISOString is the
only operation the code applies to them), any other object value by the
opaque vObj, and the scalars by vStr, vNum and vBool (numbers restricted to
the integral values the code stores). -/

inductive MetaValue where
  | vNull : MetaValue
  | vStr (s : String) : MetaValue
  | vNum (n : Int) : MetaValue
  | vBool (b : Bool) : MetaValue
  | vArr (xs : List String) : MetaValue
  | vDate (iso : String) : MetaValue
  | vObj : MetaValue
deriving DecidableEq

/-- A metadata value accepted by the storage backend: string, number or
boolean. -/
inductive SanValue where
  | sStr (s : String) : SanValue
  | sNum (n : Int) : SanValue
  | sBool (b : Bool) : SanValue
deriving DecidableEq

/-- A metadata mapping, in JavaScript object insertion order, with the
unique keys of a JavaScript object. -/
abbrev Metadata := List (String × MetaValue)

/-- A sanitized metadata mapping. -/
abbrev SanMetadata := List (String × SanValue)

/-- Model of the JavaScript Array.prototype.join with separator ",". -/
def joinComma : List String → String
  | [] => ""
  | [x] => x
  | x :: rest => x ++ "," ++ joinComma rest

/-- One iteration of the sanitizeMetadata loop: null and undefined values
are skipped, arrays become comma-joined strings, dates become their ISO
strings, other objects are skipped, and scalars pass through; a kept entry
is assigned into the result object (an append, since keys are unique). -/
def sanitizeStep (acc : SanMetadata) (kv : String × MetaValue) : SanMetadata :=
  match kv.2 with
  | .vNull => acc
  | .vArr xs => acc ++ [(kv.1, .sStr (joinComma xs))]
  | .vDate iso => acc ++ [(kv.1, .sStr iso)]
  | .vObj => acc
  | .vStr s => acc ++ [(kv.1, .sStr s)]
  | .vNum n => acc ++ [(kv.1, .sNum n)]
  | .vBool b => acc ++ [(kv.1, .sBool b)]

/-- Embedding of sanitizeMetadata: the for-of loop over Object.entries. -/
def sanitizeMetadata (metadata : Metadata) : SanMetadata :=
  metadata.foldl sanitizeStep []

/-- A concrete metadata mapping exercising every sanitizeMetadata case:
scalars, a tags list, a null, a nested object and a date. -/
def sampleMetadata : Metadata :=
  [("source", MetaValue.vStr "docs"), ("tags", MetaValue.vArr ["a", "b"]),
   ("x", MetaValue.vNull), ("nested", MetaValue.vObj),
   ("priority", MetaValue.vNum 60), ("flag", MetaValue.vBool true),
   ("lastModified", MetaValue.vDate "2024-01-01T00:00:00.000Z")]

/-- Per-entry description of sanitizeMetadata, used to state its
specification: none for dropped entries, the sanitized entry otherwise. -/
def sanitizeOne : String × MetaValue → Option (String × SanValue)
  | (_, .vNull) => none
  | (k, .vArr xs) => some (k, .sStr (joinComma xs))
  | (k, .vDate iso) => some (k, .sStr iso)
  | (_, .vObj) => none
  | (k, .vStr s) => some (k, .sStr s)
  | (k, .vNum n) => some (k, .sNum n)
  | (k, .vBool b) => some (k, .sBool b)

/-! ## Identity assigner: generateChunkId (scripts/ingest-docs.ts,
lines 31-35).  The source delegates to the Node crypto library; the
definitions below embed that dependency as the standard SHA-256 function
(FIPS 180-4) over the UTF-8 bytes of the input, producing the lowercase hex
digest that digest(hex) returns.  32-bit words are modelled as Nat reduced
modulo 2^32. -/

def w32 (x : Nat) : Nat := x % 4294967296
def rotr32 (n x : Nat) : Nat := x / 2 ^ n + x % 2 ^ n * 2 ^ (32 - n)
def shr32 (n x : Nat) : Nat := x / 2 ^ n
def sSig0 (x : Nat) : Nat := rotr32 7 x ^^^ rotr32 18 x ^^^ shr32 3 x
def sSig1 (x : Nat) : Nat := rotr32 17 x ^^^ rotr32 19 x ^^^ shr32 10 x
def bSig0 (x : Nat) : Nat := rotr32 2 x ^^^ rotr32 13 x ^^^ rotr32 22 x
def bSig1 (x : Nat) : Nat := rotr32 6 x ^^^ rotr32 11 x ^^^ rotr32 25 x
def chFn (e f g : Nat) : Nat := (e &&& f) ^^^ ((e ^^^ 4294967295) &&& g)
def majFn (a b c : Nat) : Nat := (a &&& b) ^^^ (a &&& c) ^^^ (b &&& c)

structure Hash8 where
  a : Nat
  b : Nat
  c : Nat
  d : Nat
  e : Nat
  f : Nat
  g : Nat
  h : Nat

def initH : Hash8 :=
  ⟨1779033703, 3144134277, 1013904242, 2773480762,
   1359893119, 2600822924, 528734635, 1541459225⟩

def sha256K : List Nat :=
  [1116352408, 1899447441, 3049323471, 3921009573, 961987163, 1508970993,
   2453635748, 2870763221, 3624381080, 310598401, 607225278, 1426881987,
   1925078388, 2162078206, 2614888103, 3248222580, 3835390401, 4022224774,
   264347078, 604807628, 770255983, 1249150122, 1555081692, 1996064986,
   2554220882, 2821834349, 2952996808, 3210313671, 3336571891, 3584528711,
   113926993, 338241895, 666307205, 773529912, 1294757372, 1396182291,
   1695183700, 1986661051, 2177026350, 2456956037, 2730485921, 2820302411,
   3259730800, 3345764771, 3516065817, 3600352804, 4094571909, 275423344,
   430227734, 506948616, 659060556, 883997877, 958139571, 1322822218,
   1537002063, 1747873779, 1955562222, 2024104815, 2227730452, 2361852424,
   2428436474, 2756734187, 3204031479, 3329325298]

def scheduleGo : Nat → List Nat → List Nat
  | 0, ws => ws
  | fuel + 1, ws =>
    let len := ws.length
    let w := w32 (sSig1 (ws.getD (len - 2) 0) + ws.getD (len - 7) 0
      + sSig0 (ws.getD (len - 15) 0) + ws.getD (len - 16) 0)
    scheduleGo fuel (ws ++ [w])

def sha256Round (st : Hash8) (kw : Nat × Nat) : Hash8 :=
  let t1 := w32 (st.h + bSig1 st.e + chFn st.e st.f st.g + kw.1 + kw.2)
  let t2 := w32 (bSig0 st.a + majFn st.a st.b st.c)
  ⟨w32 (t1 + t2), st.a, st.b, st.c, w32 (st.d + t1), st.e, st.f, st.g⟩

def bytesToWords : List Nat → List Nat
  | b0 :: b1 :: b2 :: b3 :: rest => (((b0 * 256 + b1) * 256 + b2) * 256 + b3) :: bytesToWords rest
  | _ => []

def compress (st : Hash8) (block : List Nat) : Hash8 :=
  let ws := scheduleGo 48 (bytesToWords block)
  let fin := (sha256K.zip ws).foldl sha256Round st
  ⟨w32 (st.a + fin.a), w32 (st.b + fin.b), w32 (st.c + fin.c), w32 (st.d + fin.d),
   w32 (st.e + fin.e), w32 (st.f + fin.f), w32 (st.g + fin.g), w32 (st.h + fin.h)⟩

def chunk64 (bs : List Nat) : List (List Nat) :=
  match bs with
  | [] => []
  | b :: rest => ((b :: rest).take 64) :: chunk64 ((b :: rest).drop 64)
termination_by bs.length
decreasing_by simp; omega

def lengthBytes (n : Nat) : List Nat :=
  [n / 2 ^ 56 % 256, n / 2 ^ 48 % 256, n / 2 ^ 40 % 256, n / 2 ^ 32 % 256,
   n / 2 ^ 24 % 256, n / 2 ^ 16 % 256, n / 2 ^ 8 % 256, n % 256]

def padMessage (msg : List Nat) : List Nat :=
  let zeros := (64 - (msg.length + 9) % 64) % 64
  msg ++ [0x80] ++ List.replicate zeros 0 ++ lengthBytes (8 * msg.length)

def utf8Bytes (c : Char) : List Nat :=
  let n := c.toNat
  if n < 128 then [n]
  else if n < 2048 then [192 + n / 64, 128 + n % 64]
  else if n < 65536 then [224 + n / 4096, 128 + n / 64 % 64, 128 + n % 64]
  else [240 + n / 262144, 128 + n / 4096 % 64, 128 + n / 64 % 64, 128 + n % 64]

def strBytes (s : String) : List Nat := (s.data.map utf8Bytes).flatten

def hexDigit (n : Nat) : Char :=
  if n < 10 then Char.ofNat (48 + n) else Char.ofNat (87 + n)

def toHex8 (x : Nat) : List Char :=
  [hexDigit (x / 16 ^ 7 % 16), hexDigit (x / 16 ^ 6 % 16), hexDigit (x / 16 ^ 5 % 16),
   hexDigit (x / 16 ^ 4 % 16), hexDigit (x / 16 ^ 3 % 16), hexDigit (x / 16 ^ 2 % 16),
   hexDigit (x / 16 % 16), hexDigit (x % 16)]

def sha256Hex (s : String) : String :=
  let st := (chunk64 (padMessage (strBytes s))).foldl compress initH
  ⟨toHex8 st.a ++ toHex8 st.b ++ toHex8 st.c ++ toHex8 st.d
    ++ toHex8 st.e ++ toHex8 st.f ++ toHex8 st.g ++ toHex8 st.h⟩

/-- Embedding of generateChunkId: the first 16 characters of the hex
SHA-256 digest of "{filePath}-{chunkIndex}". -/
def generateChunkId (filePath : String) (chunkIndex : Nat) : String :=
  ⟨(sha256Hex (filePath ++ "-" ++ toString chunkIndex)).data.take 16⟩

/-! ## The client, the store and the server (src/lib/client.ts).
The ChromaDB server is external: its collection map is modelled as an
association list from collection names to stores, a store being the list
of documents the collection holds.  The nearest-neighbor search the server
performs for collection.query is outside the scope of the sources and is
taken as a parameter (a function from the store, the query embedding, the
requested nResults and the where clause to the raw result entries).
Embedding vectors and distances are rationals. -/

/-- A document as stored in a collection: its id, content, sanitized
metadata and embedding vector. -/
structure StoredDoc where
  id : String
  content : String
  metadata : SanMetadata
  embedding : List ℚ
deriving DecidableEq

/-- The contents of one collection. -/
abbrev Store := List StoredDoc

/-- The collections of the ChromaDB server, by name. -/
abbrev Server := List (String × Store)

/-- One raw nearest-neighbor result entry: the parallel array slots at one
index of the collection.query response (documents and metadatas slots can
be absent, which the client defaults). -/
structure RawEntry where
  id : String
  document : Option String
  metadata : Option SanMetadata
  distance : ℚ
deriving DecidableEq

/-- The where clause the client builds from the query options. -/
structure WhereClause where
  category : Option String := none
  source : Option String := none
  tags : Option (List String) := none
  lastModifiedGte : Option String := none
  lastModifiedLte : Option String := none
deriving DecidableEq

/-- The nearest-neighbor search of the external server. -/
abbrev NNSearch := Store → List ℚ → Nat → WhereClause → List RawEntry

/-- A query result (src/lib/types.ts): content, metadata, similarity score
and id. -/
structure QueryResult where
  content : String
  metadata : SanMetadata
  score : ℚ
  id : String
deriving DecidableEq

/-- Query options (src/lib/types.ts); absent fields are none, and
dateRange dates are modelled by their ISO strings. -/
structure QueryOptions where
  limit : Option Nat := none
  threshold : Option ℚ := none
  category : Option String := none
  source : Option String := none
  tags : Option (List String) := none
  dateStart : Option String := none
  dateEnd : Option String := none

/-- A client-side document to be added (src/lib/types.ts VectorDocument):
unsanitized metadata and an optional embedding. -/
structure VectorDocument where
  id : String
  content : String
  metadata : Metadata
  embedding : Option (List ℚ)

/-- The constructor configuration of ProjectVectorDB: the collection name
and the optional embedding function (the external embedding API modelled
as a pure function). -/
structure ClientConfig where
  collectionName : String
  embedder : Option (String → List ℚ)

/-- The mutable state of a ProjectVectorDB instance: the isInitialized
flag and the collection handle (the name of the collection it points to,
none before initialization). -/
structure ClientState where
  isInitialized : Bool
  collection : Option String
deriving DecidableEq

/-- A client state together with the server state it talks to. -/
structure World where
  client : ClientState
  server : Server

/-- Server lookup of a collection by name (getCollection). -/
def serverGet (sv : Server) (name : String) : Option Store :=
  match sv with
  | [] => none
  | p :: rest => if p.1 == name then some p.2 else serverGet rest name

/-- Server create-or-replace of a collection (createCollection; the
collection metadata the client passes carries no behavior and is not
modelled). -/
def serverSet (sv : Server) (name : String) (st : Store) : Server :=
  match sv with
  | [] => [(name, st)]
  | p :: rest => if p.1 == name then (name, st) :: rest else p :: serverSet rest name st

/-- Server deleteCollection. -/
def serverDelete (sv : Server) (name : String) : Server :=
  match sv with
  | [] => []
  | p :: rest => if p.1 == name then rest else p :: serverDelete rest name

/-- Bulk add into a store: ChromaDB add is an upsert by id. -/
def upsertDoc (st : Store) (d : StoredDoc) : Store :=
  if st.any (fun x => x.id == d.id)
  then st.map (fun x => if x.id == d.id then d else x)
  else st ++ [d]

/-- Adding a document batch to a store, in order. -/
def chromaAdd (st : Store) (ds : List StoredDoc) : Store := ds.foldl upsertDoc st

/-- Embedding of initialize (client.ts lines 601-627): a no-op when
already initialized, otherwise get the collection, create it when the get
fails, and set the initialized flag.  The modelled server is always
reachable, so the catch-all rethrow of initialize never fires in the
model. -/
def initializeClient (cfg : ClientConfig) (w : World) : World × Except String Unit :=
  if w.client.isInitialized then (w, .ok ())
  else
    match serverGet w.server cfg.collectionName with
    | some _ =>
      ({ client := { isInitialized := true, collection := some cfg.collectionName },
         server := w.server }, .ok ())
    | none =>
      ({ client := { isInitialized := true, collection := some cfg.collectionName },
         server := serverSet w.server cfg.collectionName [] }, .ok ())

/-- Embedding of ensureInitialized (client.ts lines 632-636). -/
def ensureInitialized (cfg : ClientConfig) (w : World) : World × Except String Unit :=
  if w.client.isInitialized then (w, .ok ()) else initializeClient cfg w

/-- The where clause built by query (client.ts lines 670-687). -/
def buildWhere (options : QueryOptions) : WhereClause :=
  { category := options.category,
    source := options.source,
    tags := match options.tags with
      | some ts => if ts.length > 0 then some ts else none
      | none => none,
    lastModifiedGte := options.dateStart,
    lastModifiedLte := options.dateEnd }

/-- One iteration of the result-processing loop of query (client.ts lines
699-713): convert the distance to a similarity, and keep the entry when
the similarity reaches the threshold. -/
def processEntry (threshold : ℚ) (acc : List QueryResult) (e : RawEntry) : List QueryResult :=
  let similarity := 1 - e.distance
  if threshold ≤ similarity then
    acc ++ [{ content := e.document.getD "", metadata := e.metadata.getD [],
              score := similarity, id := e.id }]
  else acc

/-- The result-processing loop of query over all raw entries. -/
def processResults (raw : List RawEntry) (threshold : ℚ) : List QueryResult :=
  raw.foldl (processEntry threshold) []

/-- Insertion into a descending run, matching the comparator
(a, b) => b.score - a.score of the final sort of query. -/
def insertDesc (r : QueryResult) : List QueryResult → List QueryResult
  | [] => [r]
  | x :: xs => if x.score < r.score then r :: x :: xs else x :: insertDesc r xs

/-- The sort of query results by descending score. -/
def sortByScoreDesc : List QueryResult → List QueryResult
  | [] => []
  | x :: xs => insertDesc x (sortByScoreDesc xs)

/-- Embedding of query (client.ts lines 644-719): ensure initialization,
destructure the options with their defaults (limit 5, threshold 0.7),
check the collection and the embedding function, embed the query text, run
the nearest-neighbor search with nResults = limit and the built where
clause, convert distances to similarities keeping those at or above the
threshold, and sort descending by score. -/
def queryClient (cfg : ClientConfig) (nn : NNSearch) (q : String) (options : QueryOptions)
    (w : World) : World × Except String (List QueryResult) :=
  match ensureInitialized cfg w with
  | (w1, .error e) => (w1, .error e)
  | (w1, .ok _) =>
    let limit := options.limit.getD 5
    let threshold := options.threshold.getD (7 / 10)
    match w1.client.collection with
    | none => (w1, .error "Collection not initialized")
    | some name =>
      match cfg.embedder with
      | none =>
        (w1, .error "Embedding function not configured. Please provide one in the constructor.")
      | some gen =>
        let embedding := gen q
        let whereClause := buildWhere options
        let store := (serverGet w1.server name).getD []
        let raw := nn store embedding limit whereClause
        (w1, .ok (sortByScoreDesc (processResults raw threshold)))

/-- The embedding-generation pass of addDocuments (client.ts lines
789-798): every document without an embedding receives one generated from
its content. -/
def embedDocs (gen : String → List ℚ) (docs : List VectorDocument) : List VectorDocument :=
  docs.map (fun d =>
    match d.embedding with
    | some _ => d
    | none => { d with embedding := some (gen d.content) })

/-- How addDocuments stores a document: sanitized metadata and the (by
then always present) embedding. -/
def toStored (d : VectorDocument) : StoredDoc :=
  { id := d.id, content := d.content, metadata := sanitizeMetadata d.metadata,
    embedding := d.embedding.getD [] }

/-- Embedding of addDocuments (client.ts lines 779-807): ensure
initialization, check the collection, return at once on an empty batch,
generate missing embeddings (an error when documents lack embeddings and
no embedding function is configured), and add the sanitized documents to
the collection. -/
def addDocuments (cfg : ClientConfig) (docs : List VectorDocument) (w : World) :
    World × Except String Unit :=
  match ensureInitialized cfg w with
  | (w1, .error e) => (w1, .error e)
  | (w1, .ok _) =>
    match w1.client.collection with
    | none => (w1, .error "Collection not initialized")
    | some name =>
      if docs.length = 0 then (w1, .ok ())
      else
        if (docs.filter (fun d => d.embedding.isNone)).length ≠ 0 then
          match cfg.embedder with
          | none => (w1, .error "Embeddings required but no embedding function provided")
          | some gen =>
            let store := (serverGet w1.server name).getD []
            ({ client := w1.client,
               server := serverSet w1.server name
                 (chromaAdd store ((embedDocs gen docs).map toStored)) }, .ok ())
        else
          let store := (serverGet w1.server name).getD []
          ({ client := w1.client,
             server := serverSet w1.server name
               (chromaAdd store (docs.map toStored)) }, .ok ())

/-- Embedding of clearCollection (client.ts lines 1027-1050): the confirm
guard throws before anything else happens; with confirm, ensure
initialization, then delete and recreate the collection. -/
def clearCollection (cfg : ClientConfig) (confirm : Bool) (w : World) :
    World × Except String Unit :=
  if ¬ confirm then (w, .error "Must confirm deletion by passing true")
  else
    match ensureInitialized cfg w with
    | (w1, .error e) => (w1, .error e)
    | (w1, .ok _) =>
      match w1.client.collection with
      | none => (w1, .error "Collection not initialized")
      | some name =>
        ({ client := w1.client,
           server := serverSet (serverDelete w1.server name) name [] }, .ok ())

/-! ## JSON codec (backup serialization).  JSON.stringify and JSON.parse
are external runtime functions; they are embedded for the value shapes the
backup codec produces: strings, integral numbers, booleans, null and
objects.  Arrays and fractional numbers do not occur in exported backups
and are outside the modelled grammar; an input the modelled parser rejects
is malformed for the model exactly as a JSON.parse exception is for the
source. -/

inductive Json where
  | str (s : String) : Json
  | num (n : Int) : Json
  | bool (b : Bool) : Json
  | null : Json
  | obj (fields : List (String × Json)) : Json

def escChar (c : Char) : List Char :=
  if c = '"' then ['\\', '"']
  else if c = '\\' then ['\\', '\\']
  else if c = '\n' then ['\\', 'n']
  else if c = '\r' then ['\\', 'r']
  else if c = '\t' then ['\\', 't']
  else if c = Char.ofNat 8 then ['\\', 'b']
  else if c = Char.ofNat 12 then ['\\', 'f']
  else if c.toNat < 32 then
    ['\\', 'u', '0', '0', hexDigit (c.toNat / 16), hexDigit (c.toNat % 16)]
  else [c]

def escString (s : String) : List Char := (s.data.map escChar).flatten

def encStr (s : String) : List Char := '"' :: (escString s ++ ['"'])

def natToDec (n : Nat) : List Char :=
  if h : n < 10 then [Char.ofNat (48 + n)]
  else natToDec (n / 10) ++ [Char.ofNat (48 + n % 10)]
termination_by n
decreasing_by exact Nat.div_lt_self (by omega) (by omega)

def encInt (n : Int) : List Char :=
  if n < 0 then '-' :: natToDec n.natAbs else natToDec n.toNat

mutual

def jsonEncode : Json → List Char
  | .str s => encStr s
  | .num n => encInt n
  | .bool b => if b then ['t', 'r', 'u', 'e'] else ['f', 'a', 'l', 's', 'e']
  | .null => ['n', 'u', 'l', 'l']
  | .obj fields => '{' :: (encFields fields ++ ['}'])

def encFields : List (String × Json) → List Char
  | [] => []
  | [(k, v)] => encStr k ++ ':' :: jsonEncode v
  | (k, v) :: rest => encStr k ++ ':' :: jsonEncode v ++ ',' :: encFields rest
end

def isWsChar (c : Char) : Bool := c = ' ' ∨ c = '\n' ∨ c = '\t' ∨ c = '\r'

def skipWs : List Char → List Char
  | [] => []
  | c :: rest => if isWsChar c then skipWs rest else c :: rest

def unescape (e : Char) : Option Char :=
  if e = '"' then some '"'
  else if e = '\\' then some '\\'
  else if e = '/' then some '/'
  else if e = 'n' then some '\n'
  else if e = 't' then some '\t'
  else if e = 'r' then some '\r'
  else if e = 'b' then some (Char.ofNat 8)
  else if e = 'f' then some (Char.ofNat 12)
  else none

def parseHex (c : Char) : Option Nat :=
  if '0' ≤ c ∧ c ≤ '9' then some (c.toNat - 48)
  else if 'a' ≤ c ∧ c ≤ 'f' then some (c.toNat - 87)
  else if 'A' ≤ c ∧ c ≤ 'F' then some (c.toNat - 55)
  else none

def parseStringBody : List Char → Option (List Char × List Char)
  | [] => none
  | c :: rest =>
    if c = '"' then some ([], rest)
    else if c = '\\' then
      match rest with
      | [] => none
      | e :: rest2 =>
        if e = 'u' then
          match rest2 with
          | h1 :: h2 :: h3 :: h4 :: rest3 =>
            match parseHex h1, parseHex h2, parseHex h3, parseHex h4 with
            | some a, some b, some c2, some d =>
              (parseStringBody rest3).map (fun p =>
                (Char.ofNat (((a * 16 + b) * 16 + c2) * 16 + d) :: p.1, p.2))
            | _, _, _, _ => none
          | _ => none
        else
          match unescape e with
          | some c2 => (parseStringBody rest2).map (fun p => (c2 :: p.1, p.2))
          | none => none
    else (parseStringBody rest).map (fun p => (c :: p.1, p.2))

def digitsToNat (ds : List Char) : Nat := ds.foldl (fun a c => a * 10 + (c.toNat - 48)) 0

def parseNumber (cs : List Char) : Option (Int × List Char) :=
  match cs with
  | [] => none
  | c :: rest =>
    if c = '-' then
      if rest.takeWhile Char.isDigit = [] then none
      else some (-(digitsToNat (rest.takeWhile Char.isDigit) : Int), rest.dropWhile Char.isDigit)
    else
      if (c :: rest).takeWhile Char.isDigit = [] then none
      else some ((digitsToNat ((c :: rest).takeWhile Char.isDigit) : Nat),
        (c :: rest).dropWhile Char.isDigit)

mutual

def parseVal : Nat → List Char → Option (Json × List Char)
  | 0, _ => none
  | fuel + 1, cs =>
    match skipWs cs with
    | '{' :: rest =>
      match skipWs rest with
      | '}' :: rest2 => some (.obj [], rest2)
      | other => (parseMembers fuel other).map (fun p => (Json.obj p.1, p.2))
    | '"' :: rest => (parseStringBody rest).map (fun p => (Json.str ⟨p.1⟩, p.2))
    | 't' :: 'r' :: 'u' :: 'e' :: rest => some (.bool true, rest)
    | 'f' :: 'a' :: 'l' :: 's' :: 'e' :: rest => some (.bool false, rest)
    | 'n' :: 'u' :: 'l' :: 'l' :: rest => some (.null, rest)
    | other => (parseNumber other).map (fun p => (Json.num p.1, p.2))

def parseMembers : Nat → List Char → Option (List (String × Json) × List Char)
  | 0, _ => none
  | fuel + 1, cs =>
    match skipWs cs with
    | '"' :: rest =>
      match parseStringBody rest with
      | none => none
      | some (key, r1) =>
        match skipWs r1 with
        | ':' :: r2 =>
          match parseVal fuel r2 with
          | none => none
          | some (v, r3) =>
            match skipWs r3 with
            | ',' :: r4 =>
              (parseMembers fuel r4).map (fun p => ((String.mk key, v) :: p.1, p.2))
            | '}' :: r4 => some ([(String.mk key, v)], r4)
            | _ => none
        | _ => none
    | _ => none
end

def jsonParse (cs : List Char) : Option Json :=
  match parseVal (cs.length + 1) cs with
  | some (j, rest) => if skipWs rest = [] then some j else none
  | none => none

def headNotDigit (cs : List Char) : Prop :=
  match cs with
  | [] => True
  | c :: _ => c.isDigit = false

mutual

def jfuel : Json → Nat
  | .obj fs => ffuel fs + 1
  | _ => 1

def ffuel : List (String × Json) → Nat
  | [] => 1
  | (_, v) :: rest => jfuel v + ffuel rest + 1
end

/-! ## Backup codec: exportBackup and importBackup (client.ts lines
883-974), together with getStats (lines 980-1021), whose snapshot the
export header embeds.  File reads and writes are external: exportBackup
returns the text it writes, and importBackup receives the text it reads. -/

/-- The JSON value of a stored (sanitized) metadata value. -/
def sanJson : SanValue → Json
  | .sStr s => .str s
  | .sNum n => .num n
  | .sBool b => .bool b

/-- The JSON record exportBackup writes for one document: id, content and
metadata, the embedding left out (the source comments it out to save
space). -/
def docJson (d : StoredDoc) : Json :=
  .obj [("id", .str d.id), ("content", .str d.content),
        ("metadata", .obj (d.metadata.map (fun kv => (kv.1, sanJson kv.2))))]

/-- Association lookup in stored metadata (the metadata.category and
metadata.source accesses of getStats). -/
def lookupMeta (md : SanMetadata) (k : String) : Option SanValue :=
  match md with
  | [] => none
  | p :: rest => if p.1 == k then some p.2 else lookupMeta rest k

/-- JavaScript truthiness of a metadata value: the empty string, zero and
false are falsy. -/
def truthySan : SanValue → Bool
  | .sStr s => !(s == "")
  | .sNum n => !(n == 0)
  | .sBool b => b

/-- JavaScript object-key coercion of a metadata value. -/
def sanKeyString : SanValue → String
  | .sStr s => s
  | .sNum n => toString n
  | .sBool b => if b then "true" else "false"

/-- The counts[key] = (counts[key] || 0) + 1 update of getStats on a
Record kept in insertion order. -/
def bumpCount (m : List (String × Nat)) (k : String) : List (String × Nat) :=
  match m with
  | [] => [(k, 1)]
  | p :: rest => if p.1 == k then (p.1, p.2 + 1) :: rest else p :: bumpCount rest k

/-- Collection statistics (src/lib/types.ts CollectionStats). -/
structure CollectionStats where
  totalDocuments : Nat
  categories : List (String × Nat)
  sources : List (String × Nat)
  lastUpdated : String
  averageChunkSize : Nat

/-- One iteration of the stats loop of getStats over the sample. -/
def statsStep (acc : List (String × Nat) × List (String × Nat) × Nat) (d : StoredDoc) :
    List (String × Nat) × List (String × Nat) × Nat :=
  let cats := match lookupMeta d.metadata "category" with
    | some v => if truthySan v then bumpCount acc.1 (sanKeyString v) else acc.1
    | none => acc.1
  let srcs := match lookupMeta d.metadata "source" with
    | some v => if truthySan v then bumpCount acc.2.1 (sanKeyString v) else acc.2.1
    | none => acc.2.1
  let total := if d.content == "" then acc.2.2 else acc.2.2 + d.content.length
  (cats, srcs, total)

/-- Embedding of getStats on a store: the count, the sampled (limit 1000)
category and source counts, the clock reading, and the average chunk size
rounded half-up as Math.round does on the nonnegative quotient. -/
def computeStats (store : Store) (now : String) : CollectionStats :=
  let sample := store.take 1000
  let acc := sample.foldl statsStep ([], [], 0)
  { totalDocuments := store.length,
    categories := acc.1,
    sources := acc.2.1,
    lastUpdated := now,
    averageChunkSize :=
      if 0 < sample.length then (2 * acc.2.2 + sample.length) / (2 * sample.length) else 0 }

/-- The JSON object of a Record of counts. -/
def countsJson (m : List (String × Nat)) : Json :=
  .obj (m.map (fun kv => (kv.1, Json.num kv.2)))

/-- The JSON value of the stats snapshot, fields in construction order. -/
def statsJson (st : CollectionStats) : Json :=
  .obj [("totalDocuments", .num st.totalDocuments), ("categories", countsJson st.categories),
        ("sources", countsJson st.sources), ("lastUpdated", .str st.lastUpdated),
        ("averageChunkSize", .num st.averageChunkSize)]

/-- The backup header written as the first line: version, exportDate and
the stats snapshot. -/
def headerJson (now : String) (st : CollectionStats) : Json :=
  .obj [("version", .str "1.0"), ("exportDate", .str now), ("stats", statsJson st)]

/-- The JavaScript Array.prototype.join with newline separator. -/
def joinLines : List (List Char) → List Char
  | [] => []
  | [l] => l
  | l :: rest => l ++ '\n' :: joinLines rest

/-- Embedding of exportBackup: ensure initialization, read all documents
and the stats, and produce the backup text: the JSON header line, a
newline, and the JSONL document records joined by newlines. -/
def exportBackup (cfg : ClientConfig) (now : String) (w : World) :
    World × Except String (List Char) :=
  match ensureInitialized cfg w with
  | (w1, .error e) => (w1, .error e)
  | (w1, .ok _) =>
    match w1.client.collection with
    | none => (w1, .error "Collection not initialized")
    | some name =>
      let store := (serverGet w1.server name).getD []
      let stats := computeStats store now
      (w1, .ok (jsonEncode (headerJson now stats) ++ '\n'
        :: joinLines (store.map (fun d => jsonEncode (docJson d)))))

/-- Model of the JavaScript String.prototype.trim over the whitespace the
backup files contain. -/
def jsTrim (cs : List Char) : List Char :=
  ((cs.dropWhile isWsChar).reverse.dropWhile isWsChar).reverse

/-- The metadata value a parsed JSON value denotes. -/
def metaValOfJson : Json → MetaValue
  | .str s => .vStr s
  | .num n => .vNum n
  | .bool b => .vBool b
  | .null => .vNull
  | .obj _ => .vObj

/-- The metadata mapping a parsed JSON value denotes (non-objects give an
empty mapping, as reading properties of a non-object does in the
source). -/
def metaOfJson : Json → Metadata
  | .obj fields => fields.map (fun kv => (kv.1, metaValOfJson kv.2))
  | _ => []

/-- Association lookup among parsed JSON object fields. -/
def jsonLookup (fields : List (String × Json)) (k : String) : Option Json :=
  match fields with
  | [] => none
  | p :: rest => if p.1 == k then some p.2 else jsonLookup rest k

/-- The document a parsed backup line denotes: the id, content and
metadata properties (defaulting like the untyped source does when absent),
with no embedding, since exported records carry none. -/
def docOfJson (j : Json) : VectorDocument :=
  match j with
  | .obj fields =>
    { id := match jsonLookup fields "id" with
        | some (.str s) => s
        | _ => "",
      content := match jsonLookup fields "content" with
        | some (.str s) => s
        | _ => "",
      metadata := match jsonLookup fields "metadata" with
        | some m => metaOfJson m
        | none => [],
      embedding := none }
  | _ => { id := "", content := "", metadata := [], embedding := none }

/-- The JSON.parse loop over the document lines of a backup: the whole of
the import fails on the first malformed line, before any write. -/
def parseDocLines : List (List Char) → Option (List VectorDocument)
  | [] => some []
  | l :: rest =>
    match jsonParse l with
    | none => none
    | some j => (parseDocLines rest).map (fun ds => docOfJson j :: ds)

/-- The batching loop of the import, structurally recursive on a fuel
bound that dominates the list length. -/
def chunk100Go : Nat → List VectorDocument → List (List VectorDocument)
  | _, [] => []
  | 0, _ :: _ => []
  | fuel + 1, d :: rest => ((d :: rest).take 100) :: chunk100Go fuel ((d :: rest).drop 100)

/-- The batching of the import loop (batchSize 100). -/
def chunk100 (l : List VectorDocument) : List (List VectorDocument) :=
  chunk100Go l.length l

/-- The sequential addDocuments calls of the import loop; an error aborts
the remaining batches. -/
def importBatches (cfg : ClientConfig) :
    List (List VectorDocument) → World → World × Except String Unit
  | [], w => (w, .ok ())
  | b :: rest, w =>
    match addDocuments cfg b w with
    | (w2, .ok _) => importBatches cfg rest w2
    | (w2, .error e) => (w2, .error e)

/-- Embedding of importBackup: ensure initialization, split the file into
lines dropping blank and whitespace-only ones, fail on an empty file,
parse the header line and then every document line, only then delete and
recreate the collection when clearExisting was requested, and add the
parsed documents in batches of 100. -/
def importBackup (cfg : ClientConfig) (content : List Char) (clearExisting : Bool)
    (w : World) : World × Except String Unit :=
  match ensureInitialized cfg w with
  | (w1, .error e) => (w1, .error e)
  | (w1, .ok _) =>
    let ls := (splitOnChar '\n' content).filter (fun l => !(jsTrim l).isEmpty)
    if ls.length = 0 then (w1, .error "Backup file is empty")
    else
      match jsonParse (ls.headD []) with
      | none => (w1, .error "Malformed JSON in backup header line")
      | some _ =>
        match parseDocLines (ls.drop 1) with
        | none => (w1, .error "Malformed JSON in backup document line")
        | some docs =>
          let w2 :=
            match clearExisting, w1.client.collection with
            | true, some name =>
              { client := w1.client,
                server := serverSet (serverDelete w1.server name) name [] }
            | _, _ => w1
          importBatches cfg (chunk100 docs) w2

/-- A concrete client configuration with an embedding function, for
exercising the backup roundtrip. -/
def sampleCfg : ClientConfig := ⟨"c", some (fun _ => [(1 : ℚ)])⟩

/-- A concrete one-document store. -/
def sampleStore : Store := [⟨"a", "hello", [("category", .sStr "docs")], [(1 : ℚ)]⟩]

/-- A concrete initialized world holding sampleStore. -/
def sampleWorld : World := ⟨⟨true, some "c"⟩, [("c", sampleStore)]⟩

/-! ## Chunker lemmas -/

theorem jsSlice_chunk (text : List Char) (n cs : Nat) (hn : n ≤ text.length) :
    jsSlice text (n : Int) (min ((n : Int) + (cs : Int)) ((text.length : Int)))
      = (text.drop n).take cs := by
  unfold jsSlice
  have h1 : ¬ ((n : Int) < 0) := by omega
  have h2 : ¬ (min ((n : Int) + (cs : Int)) ((text.length : Int)) < 0) := by omega
  simp only [if_neg h1, if_neg h2]
  rcases le_or_lt (n + cs) text.length with h | h
  · congr 1
    · omega
    · congr 1
      omega
  · have key : ∀ (a b : Nat), a = text.length - n → b = n →
        List.take a (List.drop b text) = List.take cs (List.drop n text) := by
      intro a b ha hb
      subst ha hb
      rw [List.take_of_length_le (by simp), List.take_of_length_le (by simp; omega)]
    apply key
    · omega
    · omega

theorem createChunksGo_eq (text : List Char) (cs ov : Nat) (hov : ov < cs)
    (hcs : cs < text.length) :
    ∀ fuel n acc, n < text.length → text.length - n ≤ fuel →
      createChunksGo text cs ov fuel (n : Int) acc
        = some (acc ++ chunksFrom text cs (cs - ov - 1) n) := by
  intro fuel
  induction fuel with
  | zero => intro n acc hn hf; omega
  | succ fuel ih =>
    intro n acc hn hf
    rw [createChunksGo]
    rw [if_pos (by exact_mod_cast hn)]
    simp only [jsSlice_chunk text n cs (le_of_lt hn)]
    rcases le_or_lt (text.length) (n + cs) with h | h
    · rw [if_pos (by push_cast; omega)]
      rw [chunksFrom, if_neg (by omega)]
    · rw [if_neg (by push_cast; omega)]
      rw [chunksFrom, if_pos (by omega)]
      have hs1 : cs - ov - 1 + 1 = cs - ov := by omega
      rw [hs1]
      have hstep : (n : Int) + ((cs : Int) - (ov : Int)) = ((n + (cs - ov) : Nat) : Int) := by
        push_cast; omega
      rw [hstep, ih (n + (cs - ov)) (acc ++ [(text.drop n).take cs]) (by omega) (by omega)]
      rw [List.append_assoc]
      rfl

theorem createChunks_eq (text : List Char) (cs ov : Nat) (hov : ov < cs)
    (hcs : cs < text.length) :
    createChunks text cs ov = some (chunksFrom text cs (cs - ov - 1) 0) := by
  unfold createChunks
  rw [if_neg]
  · have h0 : ((0 : Nat) : Int) = (0 : Int) := rfl
    rw [← h0, createChunksGo_eq text cs ov hov hcs (text.length + 1) 0 [] (by omega) (by omega)]
    rfl
  · push_neg
    constructor
    · intro h; rw [h] at hcs; simp at hcs
    · omega

theorem chunksFrom_getD (text : List Char) (cs s1 : Nat) :
    ∀ start i, i < (chunksFrom text cs s1 start).length →
      (chunksFrom text cs s1 start).getD i []
        = (text.drop (start + i * (s1 + 1))).take cs := by
  intro start
  have hrec : ∀ m start, text.length - start ≤ m →
      ∀ i, i < (chunksFrom text cs s1 start).length →
        (chunksFrom text cs s1 start).getD i []
          = (text.drop (start + i * (s1 + 1))).take cs := by
    intro m
    induction m with
    | zero =>
      intro start hm i hi
      rw [chunksFrom, if_neg (by omega)] at hi ⊢
      rcases i with _ | i
      · simp
      · exact absurd hi (by simp)
    | succ m ih =>
      intro start hm i hi
      by_cases h : start + cs < text.length
      · rw [chunksFrom, if_pos h] at hi ⊢
        rcases i with _ | i
        · simp
        · rw [List.getD_cons_succ]
          rw [ih (start + (s1 + 1)) (by omega) i (by simpa using hi)]
          congr 2
          ring
      · rw [chunksFrom, if_neg h] at hi ⊢
        rcases i with _ | i
        · simp
        · exact absurd hi (by simp)
  exact hrec (text.length - start) start (le_refl _)

theorem chunksFrom_ne_nil (text : List Char) (cs s1 start : Nat) :
    chunksFrom text cs s1 start ≠ [] := by
  rw [chunksFrom]; split <;> simp

theorem chunksFrom_drop_join (text : List Char) (cs ov : Nat) (hov : ov < cs) :
    ∀ start, ((chunksFrom text cs (cs - ov - 1) start).map (List.drop ov)).flatten
      = text.drop (start + ov) := by
  intro start
  have hrec : ∀ m start, text.length - start ≤ m →
      ((chunksFrom text cs (cs - ov - 1) start).map (List.drop ov)).flatten
        = text.drop (start + ov) := by
    intro m
    induction m with
    | zero =>
      intro start hm
      rw [chunksFrom, if_neg (by omega)]
      simp only [List.map_cons, List.map_nil]
      rw [List.drop_take, List.drop_drop]
      rw [List.take_of_length_le (by simp; omega)]
      simp
    | succ m ih =>
      intro start hm
      by_cases h : start + cs < text.length
      · rw [chunksFrom, if_pos h]
        have hs1 : cs - ov - 1 + 1 = cs - ov := by omega
        rw [hs1]
        simp only [List.map_cons, List.flatten_cons]
        rw [ih (start + (cs - ov)) (by omega)]
        rw [List.drop_take, List.drop_drop]
        rw [show text.drop (start + (cs - ov) + ov)
            = (text.drop (start + ov)).drop (cs - ov) from by
          rw [List.drop_drop]; congr 1; omega]
        rw [List.take_append_drop]
      · rw [chunksFrom, if_neg h]
        simp only [List.map_cons, List.map_nil]
        rw [List.drop_take, List.drop_drop]
        rw [List.take_of_length_le (by simp; omega)]
        simp
  exact hrec (text.length - start) start (le_refl _)

/-- C1: createChunks returns the whole text as a single chunk when it fits
(including the empty string); otherwise the i-th chunk is the
chunkSize-slice starting at offset i * (chunkSize - overlap) (the final
chunk clipped at the end), concatenating chunk 0 with each later chunk
minus its first overlap characters reconstructs the text, and a
1000-character text with chunkSize 800 and overlap 200 yields exactly the
two chunks covering [0,800) and [600,1000). -/
theorem createChunks_spec (text : List Char) (chunkSize overlap : Nat)
    (hov : overlap < chunkSize) :
    (text.length ≤ chunkSize → createChunks text chunkSize overlap = some [text]) ∧
    (chunkSize < text.length →
      ∃ chunks, createChunks text chunkSize overlap = some chunks ∧
        (∀ i, i < chunks.length →
          chunks.getD i [] = (text.drop (i * (chunkSize - overlap))).take chunkSize) ∧
        chunks ≠ [] ∧
        chunks.head! ++ ((chunks.drop 1).map (List.drop overlap)).flatten = text) ∧
    (text.length = 1000 → chunkSize = 800 → overlap = 200 →
      createChunks text chunkSize overlap = some [text.take 800, text.drop 600]) := by
  refine ⟨fun hle => ?_, fun hlt => ?_, fun h1000 h800 h200 => ?_⟩
  · unfold createChunks
    rw [if_pos (Or.inr hle)]
  · refine ⟨chunksFrom text chunkSize (chunkSize - overlap - 1) 0,
      createChunks_eq text chunkSize overlap hov hlt, ?_, chunksFrom_ne_nil _ _ _ _, ?_⟩
    · intro i hi
      have := chunksFrom_getD text chunkSize (chunkSize - overlap - 1) 0 i hi
      rw [this]
      have hs1 : chunkSize - overlap - 1 + 1 = chunkSize - overlap := by omega
      rw [hs1]
      congr 2
      omega
    · have hcons : chunksFrom text chunkSize (chunkSize - overlap - 1) 0
          = (text.drop 0).take chunkSize
            :: chunksFrom text chunkSize (chunkSize - overlap - 1)
                (0 + (chunkSize - overlap - 1 + 1)) := by
        rw [chunksFrom, if_pos (by omega)]
      rw [hcons]
      simp only [List.head!_cons, List.drop_one, List.tail_cons]
      rw [chunksFrom_drop_join text chunkSize overlap hov]
      have h2 : 0 + (chunkSize - overlap - 1 + 1) + overlap = chunkSize := by omega
      rw [h2]
      simp
  · subst h800 h200
    rw [createChunks_eq text 800 200 (by omega) (by omega)]
    rw [chunksFrom, if_pos (by omega)]
    rw [chunksFrom, if_neg (by omega)]
    have h600 : (0 : Nat) + (800 - 200 - 1 + 1) = 600 := by omega
    rw [h600]
    have e2 : List.take 800 (List.drop 600 text) = List.drop 600 text :=
      List.take_of_length_le (by simp; omega)
    rw [e2]
    simp

/-- Witness for C1 at the concrete scenario from the specification: a
1000-character text, chunkSize 800, overlap 200. -/
theorem createChunks_spec_witness :
    200 < 800 ∧
    (((List.replicate 1000 'a').length ≤ 800 →
        createChunks (List.replicate 1000 'a') 800 200 = some [List.replicate 1000 'a']) ∧
      (800 < (List.replicate 1000 'a').length →
        ∃ chunks, createChunks (List.replicate 1000 'a') 800 200 = some chunks ∧
          (∀ i, i < chunks.length →
            chunks.getD i [] = ((List.replicate 1000 'a').drop (i * (800 - 200))).take 800) ∧
          chunks ≠ [] ∧
          chunks.head! ++ ((chunks.drop 1).map (List.drop 200)).flatten
            = List.replicate 1000 'a') ∧
      ((List.replicate 1000 'a').length = 1000 → 800 = 800 → 200 = 200 →
        createChunks (List.replicate 1000 'a') 800 200
          = some [(List.replicate 1000 'a').take 800, (List.replicate 1000 'a').drop 600])) :=
  ⟨by omega, createChunks_spec (List.replicate 1000 'a') 800 200 (by omega)⟩

/-- C5 counterexample: at the concrete input text "ab", chunkSize 1,
overlap 1, the loop body neither rejects nor clamps the non-positive
advance step: one iteration leaves startIndex at 0 again (only fuel
decreases and one chunk is pushed), and the run with the canonical fuel
bound fails to reach the end of the text, returning none. -/
theorem createChunks_overlap_counterexample :
    createChunksGo ['a', 'b'] 1 1 2 0 [] = createChunksGo ['a', 'b'] 1 1 1 0 [['a']] ∧
    createChunks ['a', 'b'] 1 1 = none := by
  constructor
  · decide
  · decide

/-- C5 amended: createChunks does not guard against a non-positive advance
step.  For every text longer than chunkSize and every overlap ≥ chunkSize,
the loop never reaches the end of the text: the fueled model returns none
for every fuel bound (the source loop does not terminate), rather than
rejecting or clamping the step. -/
theorem createChunks_no_termination_guard (text : List Char) (chunkSize overlap : Nat)
    (hcs : chunkSize < text.length) (hov : chunkSize ≤ overlap) :
    (∀ fuel acc (startIndex : Int), startIndex ≤ 0 →
        createChunksGo text chunkSize overlap fuel startIndex acc = none) ∧
    createChunks text chunkSize overlap = none := by
  have hgo : ∀ fuel (startIndex : Int) acc, startIndex ≤ 0 →
      createChunksGo text chunkSize overlap fuel startIndex acc = none := by
    intro fuel
    induction fuel with
    | zero => intro s acc hs; rfl
    | succ fuel ih =>
      intro s acc hs
      rw [createChunksGo]
      rw [if_pos (by omega)]
      rw [if_neg (by omega)]
      exact ih (s + ((chunkSize : Int) - (overlap : Int))) _ (by omega)
  refine ⟨fun fuel acc s hs => hgo fuel s acc hs, ?_⟩
  unfold createChunks
  rw [if_neg]
  · exact hgo _ 0 [] (by omega)
  · push_neg
    constructor
    · intro h; rw [h] at hcs; simp at hcs
    · omega

/-- Witness for the amended C5 theorem at text "ab", chunkSize 1,
overlap 1. -/
theorem createChunks_no_termination_guard_witness :
    1 < ['a', 'b'].length ∧ 1 ≤ 1 ∧
    ((∀ fuel acc (startIndex : Int), startIndex ≤ 0 →
        createChunksGo ['a', 'b'] 1 1 fuel startIndex acc = none) ∧
      createChunks ['a', 'b'] 1 1 = none) :=
  ⟨by decide, le_refl 1, createChunks_no_termination_guard ['a', 'b'] 1 1 (by decide) (le_refl 1)⟩

/-! ## Metadata normalizer lemmas -/

theorem chainRun_eq_firstMatch {α : Type} (checks : List (List String × α)) (rp : String)
    (fb : α) :
    chainRun checks rp fb = (firstMatch checks rp).getD fb := by
  induction checks with
  | nil => rfl
  | cons pc rest ih =>
    rcases pc with ⟨pats, res⟩
    unfold chainRun firstMatch
    by_cases h : pats.any (fun pat => strContains rp pat) = true
    · rw [if_pos h, List.find?_cons_of_pos _ (by simpa using h)]
      rfl
    · rw [if_neg h, List.find?_cons_of_neg _ (by simpa using h)]
      exact ih

theorem headD_eq_dite (l : List String) :
    (if h : 0 < l.length then l.get ⟨0, h⟩ else "general") = l.headD "general" := by
  cases l <;> simp

theorem inferCategory_eq_firstMatch (p : String) :
    inferCategory p
      = (firstMatch categoryChecks (toLowerCase p)).getD
          (((splitOnChar '/' (toLowerCase p).data).map
              (fun cs => String.mk cs)).headD "general") := by
  rw [← chainRun_eq_firstMatch]
  simp only [inferCategory, chainRun, categoryChecks, List.any_cons, List.any_nil,
    Bool.or_false]
  rw [headD_eq_dite]

theorem inferPriority_eq_firstMatch (p : String) :
    inferPriority p = (firstMatch priorityChecks (toLowerCase p)).getD 60 := by
  rw [← chainRun_eq_firstMatch]
  simp only [inferPriority, chainRun, priorityChecks, List.any_cons, List.any_nil,
    Bool.or_false]

/-- C6 counterexample: the path "foo.md" contains none of the recognized
category substrings, yet inferCategory returns "foo.md" (the first
path-separator segment), not the claimed default "general": the general
fallback of the source is unreachable because split always returns at
least one segment. -/
theorem inferCategory_default_counterexample :
    (∀ pc ∈ categoryChecks, ∀ pat ∈ pc.1, strContains (toLowerCase "foo.md") pat = false) ∧
    inferCategory "foo.md" = "foo.md" ∧ inferCategory "foo.md" ≠ "general" := by
  refine ⟨by decide, by decide, by decide⟩

/-- C6 amended: on a path matching none of the category substrings,
inferCategory returns the first path.sep-separated segment of the
lowercased path ("general" only in the unreachable case of an empty split
result) rather than the claimed default "general"; on a path matching none
of the priority substrings, inferPriority returns the default 60; and for
both functions the first matching check in the fixed source order
determines the result. -/
theorem inferCategory_inferPriority_spec (p : String) :
    inferCategory p
      = (firstMatch categoryChecks (toLowerCase p)).getD
          (((splitOnChar '/' (toLowerCase p).data).map
              (fun cs => String.mk cs)).headD "general") ∧
    inferPriority p = (firstMatch priorityChecks (toLowerCase p)).getD 60 ∧
    ((∀ pc ∈ categoryChecks, ∀ pat ∈ pc.1, strContains (toLowerCase p) pat = false) →
      inferCategory p
        = ((splitOnChar '/' (toLowerCase p).data).map
            (fun cs => String.mk cs)).headD "general") ∧
    ((∀ pc ∈ priorityChecks, ∀ pat ∈ pc.1, strContains (toLowerCase p) pat = false) →
      inferPriority p = 60) := by
  refine ⟨inferCategory_eq_firstMatch p, inferPriority_eq_firstMatch p,
    fun h => ?_, fun h => ?_⟩
  · rw [inferCategory_eq_firstMatch p]
    have hnone : categoryChecks.find?
        (fun pc => pc.1.any (fun pat => strContains (toLowerCase p) pat)) = none := by
      rw [List.find?_eq_none]
      intro pc hpc
      intro hany
      rw [List.any_eq_true] at hany
      obtain ⟨pat, hpat, hc⟩ := hany
      rw [h pc hpc pat hpat] at hc
      exact Bool.false_ne_true hc
    unfold firstMatch
    rw [hnone]
    rfl
  · rw [inferPriority_eq_firstMatch p]
    have hnone : priorityChecks.find?
        (fun pc => pc.1.any (fun pat => strContains (toLowerCase p) pat)) = none := by
      rw [List.find?_eq_none]
      intro pc hpc
      intro hany
      rw [List.any_eq_true] at hany
      obtain ⟨pat, hpat, hc⟩ := hany
      rw [h pc hpc pat hpat] at hc
      exact Bool.false_ne_true hc
    unfold firstMatch
    rw [hnone]
    rfl

/-- Witness for the amended C6 theorem at the concrete path
"docs/architecture/overview.md". -/
theorem inferCategory_inferPriority_spec_witness :
    inferCategory "docs/architecture/overview.md"
      = (firstMatch categoryChecks (toLowerCase "docs/architecture/overview.md")).getD
          (((splitOnChar '/' (toLowerCase "docs/architecture/overview.md").data).map
              (fun cs => String.mk cs)).headD "general") ∧
    inferPriority "docs/architecture/overview.md"
      = (firstMatch priorityChecks (toLowerCase "docs/architecture/overview.md")).getD 60 ∧
    ((∀ pc ∈ categoryChecks, ∀ pat ∈ pc.1,
        strContains (toLowerCase "docs/architecture/overview.md") pat = false) →
      inferCategory "docs/architecture/overview.md"
        = ((splitOnChar '/' (toLowerCase "docs/architecture/overview.md").data).map
            (fun cs => String.mk cs)).headD "general") ∧
    ((∀ pc ∈ priorityChecks, ∀ pat ∈ pc.1,
        strContains (toLowerCase "docs/architecture/overview.md") pat = false) →
      inferPriority "docs/architecture/overview.md" = 60) :=
  inferCategory_inferPriority_spec "docs/architecture/overview.md"

/-! ## sanitizeMetadata lemmas -/

theorem sanitize_foldl_eq (m : Metadata) :
    ∀ acc, m.foldl sanitizeStep acc = acc ++ m.filterMap sanitizeOne := by
  induction m with
  | nil => intro acc; simp
  | cons kv rest ih =>
    intro acc
    rcases kv with ⟨k, v⟩
    cases v <;>
      simp [List.foldl_cons, List.filterMap_cons, sanitizeStep, sanitizeOne, ih,
        List.append_assoc]

theorem sanitizeMetadata_eq_filterMap (m : Metadata) :
    sanitizeMetadata m = m.filterMap sanitizeOne := by
  unfold sanitizeMetadata
  rw [sanitize_foldl_eq]
  simp

theorem sanitizeOne_key {k : String} {v : MetaValue} {p : String × SanValue}
    (h : sanitizeOne (k, v) = some p) : p.1 = k := by
  cases v <;> simp [sanitizeOne] at h <;> simp [← h]

theorem nodupKeys_eq {β : Type} (m : List (String × β)) (h : (m.map Prod.fst).Nodup)
    (k : String) (v w : β) (hv : (k, v) ∈ m) (hw : (k, w) ∈ m) : v = w := by
  induction m with
  | nil => cases hv
  | cons p rest ih =>
    rw [List.map_cons, List.nodup_cons] at h
    rcases List.mem_cons.mp hv with h1 | h1
    · rcases List.mem_cons.mp hw with h2 | h2
      · rw [← h1] at h2; exact (Prod.mk.injEq _ _ _ _ ▸ h2).2.symm
      · exfalso
        exact h.1 (h1 ▸ (List.mem_map_of_mem Prod.fst h2 : (k, w).1 ∈ rest.map Prod.fst))
    · rcases List.mem_cons.mp hw with h2 | h2
      · exfalso
        exact h.1 (h2 ▸ (List.mem_map_of_mem Prod.fst h1 : (k, v).1 ∈ rest.map Prod.fst))
      · exact ih h.2 h1 h2

theorem dropped_key_not_mem (m : Metadata) (hkeys : (m.map Prod.fst).Nodup)
    (k : String) (v : MetaValue) (hv : (k, v) ∈ m) (hnone : sanitizeOne (k, v) = none) :
    k ∉ (sanitizeMetadata m).map Prod.fst := by
  rw [sanitizeMetadata_eq_filterMap]
  intro hk
  rcases List.mem_map.mp hk with ⟨p, hp, hpk⟩
  rcases List.mem_filterMap.mp hp with ⟨⟨k2, w⟩, hw, hsw⟩
  have hk2 : k2 = k := by rw [← hpk]; exact (sanitizeOne_key hsw).symm
  subst hk2
  have := nodupKeys_eq m hkeys k2 v w hv hw
  rw [← this] at hsw
  rw [hnone] at hsw
  cases hsw

/-- C4: sanitizeMetadata drops null and undefined values, joins array
values into comma-separated strings, converts Date values to their ISO
strings, drops every other object value, and passes strings, numbers and
booleans through unchanged; equivalently it is the filterMap of the
per-entry function sanitizeOne over the metadata entries. -/
theorem sanitizeMetadata_spec (m : Metadata) (hkeys : (m.map Prod.fst).Nodup) :
    sanitizeMetadata m = m.filterMap sanitizeOne ∧
    (∀ k, (k, MetaValue.vNull) ∈ m → k ∉ (sanitizeMetadata m).map Prod.fst) ∧
    (∀ k xs, (k, MetaValue.vArr xs) ∈ m →
      (k, SanValue.sStr (joinComma xs)) ∈ sanitizeMetadata m) ∧
    (∀ k iso, (k, MetaValue.vDate iso) ∈ m →
      (k, SanValue.sStr iso) ∈ sanitizeMetadata m) ∧
    (∀ k, (k, MetaValue.vObj) ∈ m → k ∉ (sanitizeMetadata m).map Prod.fst) ∧
    (∀ k s, (k, MetaValue.vStr s) ∈ m → (k, SanValue.sStr s) ∈ sanitizeMetadata m) ∧
    (∀ k n, (k, MetaValue.vNum n) ∈ m → (k, SanValue.sNum n) ∈ sanitizeMetadata m) ∧
    (∀ k b, (k, MetaValue.vBool b) ∈ m → (k, SanValue.sBool b) ∈ sanitizeMetadata m) := by
  refine ⟨sanitizeMetadata_eq_filterMap m, ?_, ?_, ?_, ?_, ?_, ?_, ?_⟩
  · intro k hk
    exact dropped_key_not_mem m hkeys k _ hk rfl
  · intro k xs hk
    rw [sanitizeMetadata_eq_filterMap]
    exact List.mem_filterMap.mpr ⟨(k, .vArr xs), hk, rfl⟩
  · intro k iso hk
    rw [sanitizeMetadata_eq_filterMap]
    exact List.mem_filterMap.mpr ⟨(k, .vDate iso), hk, rfl⟩
  · intro k hk
    exact dropped_key_not_mem m hkeys k _ hk rfl
  · intro k s hk
    rw [sanitizeMetadata_eq_filterMap]
    exact List.mem_filterMap.mpr ⟨(k, .vStr s), hk, rfl⟩
  · intro k n hk
    rw [sanitizeMetadata_eq_filterMap]
    exact List.mem_filterMap.mpr ⟨(k, .vNum n), hk, rfl⟩
  · intro k b hk
    rw [sanitizeMetadata_eq_filterMap]
    exact List.mem_filterMap.mpr ⟨(k, .vBool b), hk, rfl⟩

/-- Witness for C4 at a concrete metadata mapping containing a tags list,
a null field, a nested object field, a date and all three scalars. -/
theorem sanitizeMetadata_spec_witness :
    ((sampleMetadata.map Prod.fst).Nodup) ∧
    ("tags", SanValue.sStr "a,b") ∈ sanitizeMetadata sampleMetadata ∧
    "nested" ∉ (sanitizeMetadata sampleMetadata).map Prod.fst := by
  refine ⟨by decide, ?_, ?_⟩
  · exact (sanitizeMetadata_spec sampleMetadata (by decide)).2.2.1 "tags" ["a", "b"] (by decide)
  · exact (sanitizeMetadata_spec sampleMetadata (by decide)).2.2.2.2.1 "nested" (by decide)

/-! ## Identity assigner lemmas -/

theorem sha256Hex_length (s : String) : (sha256Hex s).data.length = 64 := by
  unfold sha256Hex
  simp [toHex8]

theorem hexDigit_mem (n : Nat) (h : n < 16) : hexDigit n ∈ ("0123456789abcdef").data := by
  interval_cases n <;> decide

theorem toHex8_chars (x : Nat) : ∀ c ∈ toHex8 x, c ∈ ("0123456789abcdef").data := by
  intro c hc
  simp only [toHex8, List.mem_cons, List.not_mem_nil, or_false] at hc
  rcases hc with h | h | h | h | h | h | h | h <;>
    (subst h; exact hexDigit_mem _ (Nat.mod_lt _ (by omega)))

theorem sha256Hex_chars (s : String) :
    ∀ c ∈ (sha256Hex s).data, c ∈ ("0123456789abcdef").data := by
  intro c hc
  unfold sha256Hex at hc
  simp only [List.mem_append] at hc
  rcases hc with ((((((h | h) | h) | h) | h) | h) | h) | h <;> exact toHex8_chars _ c h

/-- C3: generateChunkId returns the first 16 characters of the hex-encoded
SHA-256 digest of "{filePath}-{chunkIndex}"; it is deterministic (equal
inputs give the identical id), the returned id always has length exactly
16, and every character of the id is a hexadecimal digit. -/
theorem generateChunkId_spec (filePath : String) (chunkIndex : Nat) :
    generateChunkId filePath chunkIndex
      = ⟨(sha256Hex (filePath ++ "-" ++ toString chunkIndex)).data.take 16⟩ ∧
    generateChunkId filePath chunkIndex = generateChunkId filePath chunkIndex ∧
    (generateChunkId filePath chunkIndex).length = 16 ∧
    ∀ c ∈ (generateChunkId filePath chunkIndex).data, c ∈ ("0123456789abcdef").data := by
  refine ⟨rfl, rfl, ?_, ?_⟩
  · have h64 := sha256Hex_length (filePath ++ "-" ++ toString chunkIndex)
    simp [generateChunkId, String.length, List.length_take, h64]
  · intro c hc
    simp only [generateChunkId] at hc
    exact sha256Hex_chars _ c (List.mem_of_mem_take hc)

/-! ## Client state lemmas -/

theorem serverGet_set_self (sv : Server) (name : String) (st : Store) :
    serverGet (serverSet sv name st) name = some st := by
  induction sv with
  | nil => simp [serverGet, serverSet]
  | cons p rest ih =>
    by_cases h : p.1 == name
    · simp [serverGet, serverSet, h]
    · simp only [serverSet, serverGet, h]
      simpa [h] using ih

/-- C9: clearCollection with confirm = false (the value the omitted
argument defaults to) throws before any initialization, deletion or
recreation takes place, leaving both the client and the server unchanged;
with confirm = true on an initialized client the collection is deleted and
recreated empty. -/
theorem clearCollection_spec (cfg : ClientConfig) (w : World) :
    clearCollection cfg false w = (w, .error "Must confirm deletion by passing true") ∧
    (∀ name, w.client.isInitialized = true → w.client.collection = some name →
      clearCollection cfg true w
        = ({ client := w.client,
             server := serverSet (serverDelete w.server name) name [] }, Except.ok ()) ∧
      serverGet (clearCollection cfg true w).1.server name = some []) := by
  constructor
  · rfl
  · intro name hinit hcol
    have hmain : clearCollection cfg true w
        = ({ client := w.client,
             server := serverSet (serverDelete w.server name) name [] }, Except.ok ()) := by
      unfold clearCollection ensureInitialized
      rw [hinit]
      simp [hcol]
    refine ⟨hmain, ?_⟩
    rw [hmain]
    exact serverGet_set_self _ _ _

/-- Witness for C9 at a concrete initialized client holding one
document. -/
theorem clearCollection_spec_witness :
    clearCollection ⟨"project-docs", none⟩ false
        ⟨⟨true, some "project-docs"⟩, [("project-docs", [⟨"d1", "hello", [], [1]⟩])]⟩
      = (⟨⟨true, some "project-docs"⟩, [("project-docs", [⟨"d1", "hello", [], [1]⟩])]⟩,
         Except.error "Must confirm deletion by passing true") ∧
    serverGet (clearCollection ⟨"project-docs", none⟩ true
        ⟨⟨true, some "project-docs"⟩,
          [("project-docs", [⟨"d1", "hello", [], [1]⟩])]⟩).1.server "project-docs"
      = some [] :=
  ⟨(clearCollection_spec ⟨"project-docs", none⟩ _).1,
   ((clearCollection_spec ⟨"project-docs", none⟩ _).2 "project-docs" rfl rfl).2⟩

/-- C7 counterexample: on a client on which initialize has never been
called (isInitialized is false), query does not fail with a NotInitialized
error: it auto-initializes and performs the search, returning ok with the
processed results. -/
theorem query_uninitialized_counterexample :
    (⟨⟨false, none⟩, []⟩ : World).client.isInitialized = false ∧
    (queryClient ⟨"project-docs", some (fun _ => [1])⟩ (fun _ _ _ _ => []) "styling" {}
        ⟨⟨false, none⟩, []⟩).2 = Except.ok [] := by
  exact ⟨rfl, rfl⟩

/-- C7 amended: invoking query on a client on which initialize has not
been called does not fail with a NotInitialized error; query first
auto-initializes the client (ensureInitialized calls initialize, which
gets or creates the collection) and then performs the search, succeeding
whenever an embedding function is configured. -/
theorem query_auto_initializes (cfg : ClientConfig) (nn : NNSearch) (q : String)
    (options : QueryOptions) (w : World) (gen : String → List ℚ)
    (hinit : w.client.isInitialized = false)
    (hemb : cfg.embedder = some gen) :
    ∃ w2 res, queryClient cfg nn q options w = (w2, Except.ok res) ∧
      w2.client.isInitialized = true ∧
      w2.client.collection = some cfg.collectionName := by
  unfold queryClient ensureInitialized initializeClient
  rw [hinit]
  rcases hsv : serverGet w.server cfg.collectionName with _ | st <;>
    simp [hemb, hsv]

/-- Witness for the amended C7 theorem at a concrete uninitialized
client. -/
theorem query_auto_initializes_witness :
    ((⟨⟨false, none⟩, [("project-docs", [⟨"d1", "hello", [], [1]⟩])]⟩ : World).client).isInitialized = false ∧
    (⟨"project-docs", some (fun _ => [1])⟩ : ClientConfig).embedder = some (fun _ => [1]) ∧
    ∃ w2 res,
      queryClient ⟨"project-docs", some (fun _ => [1])⟩ (fun _ _ _ _ => []) "docs" {}
          ⟨⟨false, none⟩, [("project-docs", [⟨"d1", "hello", [], [1]⟩])]⟩
        = (w2, Except.ok res) ∧
      w2.client.isInitialized = true ∧
      w2.client.collection = some "project-docs" :=
  ⟨rfl, rfl,
   query_auto_initializes ⟨"project-docs", some (fun _ => [1])⟩ (fun _ _ _ _ => []) "docs" {}
     ⟨⟨false, none⟩, [("project-docs", [⟨"d1", "hello", [], [1]⟩])]⟩ (fun _ => [1]) rfl rfl⟩

/-! ## Query pipeline lemmas -/

theorem mem_insertDesc (r x : QueryResult) (l : List QueryResult) :
    x ∈ insertDesc r l ↔ x = r ∨ x ∈ l := by
  induction l with
  | nil => simp [insertDesc]
  | cons y ys ih =>
    simp only [insertDesc]
    by_cases h : y.score < r.score
    · simp [h, List.mem_cons]
    · simp [h, List.mem_cons, ih]
      tauto

theorem mem_sortDesc (x : QueryResult) (l : List QueryResult) :
    x ∈ sortByScoreDesc l ↔ x ∈ l := by
  induction l with
  | nil => simp [sortByScoreDesc]
  | cons y ys ih => simp [sortByScoreDesc, mem_insertDesc, ih]

theorem length_insertDesc (r : QueryResult) (l : List QueryResult) :
    (insertDesc r l).length = l.length + 1 := by
  induction l with
  | nil => rfl
  | cons y ys ih =>
    simp only [insertDesc]
    split <;> simp [ih]

theorem length_sortDesc (l : List QueryResult) :
    (sortByScoreDesc l).length = l.length := by
  induction l with
  | nil => rfl
  | cons y ys ih => simp [sortByScoreDesc, length_insertDesc, ih]

theorem pairwise_insertDesc (r : QueryResult) (l : List QueryResult)
    (h : l.Pairwise (fun a b => b.score ≤ a.score)) :
    (insertDesc r l).Pairwise (fun a b => b.score ≤ a.score) := by
  induction l with
  | nil => simp [insertDesc]
  | cons y ys ih =>
    rw [List.pairwise_cons] at h
    simp only [insertDesc]
    by_cases hc : y.score < r.score
    · rw [if_pos hc, List.pairwise_cons]
      constructor
      · intro b hb
        rcases List.mem_cons.mp hb with rfl | hb2
        · exact le_of_lt hc
        · exact le_trans (h.1 b hb2) (le_of_lt hc)
      · exact List.pairwise_cons.mpr h
    · rw [if_neg hc, List.pairwise_cons]
      constructor
      · intro b hb
        rcases (mem_insertDesc r b ys).mp hb with rfl | hb2
        · exact le_of_not_lt hc
        · exact h.1 b hb2
      · exact ih h.2

theorem pairwise_sortDesc (l : List QueryResult) :
    (sortByScoreDesc l).Pairwise (fun a b => b.score ≤ a.score) := by
  induction l with
  | nil => simp [sortByScoreDesc]
  | cons y ys ih => exact pairwise_insertDesc y _ ih

theorem mem_processResults_aux (t : ℚ) (raw : List RawEntry) :
    ∀ acc x, x ∈ raw.foldl (processEntry t) acc →
      x ∈ acc ∨ ∃ e ∈ raw,
        x = { content := e.document.getD "", metadata := e.metadata.getD [],
              score := 1 - e.distance, id := e.id } ∧ t ≤ 1 - e.distance := by
  induction raw with
  | nil => intro acc x h; exact Or.inl h
  | cons e rest ih =>
    intro acc x h
    rw [List.foldl_cons] at h
    rcases ih _ x h with h2 | ⟨e2, he2, hx, ht⟩
    · unfold processEntry at h2
      by_cases hc : t ≤ 1 - e.distance
      · rw [if_pos hc] at h2
        rcases List.mem_append.mp h2 with h3 | h3
        · exact Or.inl h3
        · right
          exact ⟨e, List.mem_cons_self e rest, List.mem_singleton.mp h3, hc⟩
      · rw [if_neg hc] at h2
        exact Or.inl h2
    · right
      exact ⟨e2, List.mem_cons_of_mem e he2, hx, ht⟩

theorem mem_processResults (t : ℚ) (raw : List RawEntry) (x : QueryResult)
    (h : x ∈ processResults raw t) :
    ∃ e ∈ raw,
      x = { content := e.document.getD "", metadata := e.metadata.getD [],
            score := 1 - e.distance, id := e.id } ∧ t ≤ 1 - e.distance := by
  rcases mem_processResults_aux t raw [] x h with h2 | h2
  · cases h2
  · exact h2

theorem length_processResults_aux (t : ℚ) (raw : List RawEntry) :
    ∀ acc, (raw.foldl (processEntry t) acc).length ≤ acc.length + raw.length := by
  induction raw with
  | nil => intro acc; simp
  | cons e rest ih =>
    intro acc
    rw [List.foldl_cons]
    have h1 : (processEntry t acc e).length ≤ acc.length + 1 := by
      by_cases hc : t ≤ 1 - e.distance
      · simp [processEntry, hc]
      · simp [processEntry, hc]
    calc (rest.foldl (processEntry t) (processEntry t acc e)).length
        ≤ (processEntry t acc e).length + rest.length := ih _
      _ ≤ acc.length + 1 + rest.length := by omega
      _ = acc.length + (e :: rest).length := by simp; omega

theorem length_processResults (t : ℚ) (raw : List RawEntry) :
    (processResults raw t).length ≤ raw.length := by
  simpa using length_processResults_aux t raw []

theorem query_run (cfg : ClientConfig) (nn : NNSearch) (q : String) (options : QueryOptions)
    (w : World) (gen : String → List ℚ)
    (hemb : cfg.embedder = some gen)
    (hwf : w.client.isInitialized = true → w.client.collection.isSome) :
    ∃ store,
      (queryClient cfg nn q options w).2
        = Except.ok (sortByScoreDesc (processResults
            (nn store (gen q) (options.limit.getD 5) (buildWhere options))
            (options.threshold.getD (7 / 10)))) := by
  unfold queryClient ensureInitialized initializeClient
  by_cases hinit : w.client.isInitialized = true
  · rcases Option.isSome_iff_exists.mp (hwf hinit) with ⟨name, hname⟩
    simp [hinit, hname, hemb]
    exact ⟨_, rfl⟩
  · simp only [Bool.not_eq_true] at hinit
    rw [hinit]
    rcases hsv : serverGet w.server cfg.collectionName with _ | st
    · simp [hemb, hsv]
      exact ⟨_, rfl⟩
    · simp [hemb, hsv]
      exact ⟨_, rfl⟩

/-- C2: for every nearest-neighbor backend honoring its nResults bound and
every QueryOptions, query succeeds and its results are the processed raw
entries: each result corresponds to a raw entry with score equal to 1
minus that entry distance, only entries with score at or above the
threshold (0.7 when the caller gives none) are retained, at most limit
entries (5 when the caller gives none) are returned, and the returned
list is sorted descending by score. -/
theorem query_results_spec (cfg : ClientConfig) (nn : NNSearch) (q : String)
    (options : QueryOptions) (w : World) (gen : String → List ℚ)
    (hemb : cfg.embedder = some gen)
    (hwf : w.client.isInitialized = true → w.client.collection.isSome)
    (hnn : ∀ st e n wc, (nn st e n wc).length ≤ n) :
    ∃ store res,
      (queryClient cfg nn q options w).2 = Except.ok res ∧
      res = sortByScoreDesc (processResults
        (nn store (gen q) (options.limit.getD 5) (buildWhere options))
        (options.threshold.getD (7 / 10))) ∧
      res.length ≤ options.limit.getD 5 ∧
      (∀ r ∈ res, options.threshold.getD (7 / 10) ≤ r.score) ∧
      (∀ r ∈ res, ∃ e ∈ nn store (gen q) (options.limit.getD 5) (buildWhere options),
        r.score = 1 - e.distance ∧ r.id = e.id ∧
        r.content = e.document.getD "" ∧ r.metadata = e.metadata.getD []) ∧
      res.Pairwise (fun a b => b.score ≤ a.score) := by
  obtain ⟨store, hrun⟩ := query_run cfg nn q options w gen hemb hwf
  refine ⟨store, _, hrun, rfl, ?_, ?_, ?_, pairwise_sortDesc _⟩
  · rw [length_sortDesc]
    exact le_trans (length_processResults _ _) (hnn _ _ _ _)
  · intro r hr
    obtain ⟨e, _, hx, ht⟩ := mem_processResults _ _ r ((mem_sortDesc r _).mp hr)
    rw [hx]
    exact ht
  · intro r hr
    obtain ⟨e, he, hx, _⟩ := mem_processResults _ _ r ((mem_sortDesc r _).mp hr)
    exact ⟨e, he, by rw [hx], by rw [hx], by rw [hx], by rw [hx]⟩

/-- Witness for C2 at a concrete backend returning at most the requested
number of entries. -/
theorem query_results_spec_witness :
    ∃ (_store : Store) (res : List QueryResult),
      (queryClient ⟨"project-docs", some (fun _ => [1])⟩
          (fun _ _ n _ => List.take n [⟨"d1", some "hello", some [], 1 / 10⟩]) "docs" {}
          ⟨⟨false, none⟩, []⟩).2 = Except.ok res ∧
      res = sortByScoreDesc (processResults
        (List.take (({} : QueryOptions).limit.getD 5)
          [⟨"d1", some "hello", some [], 1 / 10⟩])
        (({} : QueryOptions).threshold.getD (7 / 10))) ∧
      res.length ≤ ({} : QueryOptions).limit.getD 5 ∧
      (∀ r ∈ res, ({} : QueryOptions).threshold.getD (7 / 10) ≤ r.score) ∧
      (∀ r ∈ res, ∃ e ∈ List.take (({} : QueryOptions).limit.getD 5)
          [(⟨"d1", some "hello", some [], 1 / 10⟩ : RawEntry)],
        r.score = 1 - e.distance ∧ r.id = e.id ∧
        r.content = e.document.getD "" ∧ r.metadata = e.metadata.getD []) ∧
      res.Pairwise (fun a b => b.score ≤ a.score) := by
  obtain ⟨store, res, h⟩ := query_results_spec ⟨"project-docs", some (fun _ => [1])⟩
    (fun _ _ n _ => List.take n [⟨"d1", some "hello", some [], 1 / 10⟩]) "docs" {}
    ⟨⟨false, none⟩, []⟩ (fun _ => [1]) rfl (fun h => by simp at h)
    (fun st e n wc => by rw [List.length_take]; exact min_le_left _ _)
  exact ⟨store, res, h⟩

/-! ## JSON codec lemmas -/

theorem json_induction (P : Json → Prop) (Q : List (String × Json) → Prop)
    (hstr : ∀ s, P (.str s)) (hnum : ∀ n, P (.num n)) (hbool : ∀ b, P (.bool b))
    (hnull : P .null) (hobj : ∀ fs, Q fs → P (.obj fs))
    (hnil : Q []) (hcons : ∀ k v rest, P v → Q rest → Q ((k, v) :: rest)) :
    (∀ j, P j) ∧ (∀ fs, Q fs) := by
  have key : ∀ n, (∀ j, sizeOf j ≤ n → P j) ∧ (∀ fs, sizeOf fs ≤ n → Q fs) := by
    intro n
    induction n using Nat.strong_induction_on with
    | _ n ih =>
      constructor
      · intro j hj
        match j with
        | .str s => exact hstr s
        | .num m => exact hnum m
        | .bool b => exact hbool b
        | .null => exact hnull
        | .obj fs =>
          have hsz : sizeOf (Json.obj fs) = 1 + sizeOf fs := by simp
          have hn : 1 ≤ n := by omega
          exact hobj fs ((ih (n - 1) (by omega)).2 fs (by omega))
      · intro fs hfs
        match fs with
        | [] => exact hnil
        | (k, v) :: rest =>
          have hsz : sizeOf ((k, v) :: rest) = 1 + (1 + sizeOf k + sizeOf v) + sizeOf rest := by
            simp
          have hn : 1 ≤ n := by omega
          exact hcons k v rest ((ih (n - 1) (by omega)).1 v (by omega))
            ((ih (n - 1) (by omega)).2 rest (by omega))
  exact ⟨fun j => (key (sizeOf j)).1 j (le_refl _), fun fs => (key (sizeOf fs)).2 fs (le_refl _)⟩

theorem parseHex_hexDigit (n : Nat) (h : n < 16) : parseHex (hexDigit n) = some n := by
  interval_cases n <;> decide

theorem charOfNat_toNat (c : Char) : Char.ofNat c.toNat = c := by
  exact Char.ofNat_toNat c

theorem parseStringBody_quote (rest : List Char) :
    parseStringBody ('"' :: rest) = some ([], rest) := by
  unfold parseStringBody
  rw [if_pos rfl]

theorem parseStringBody_plain (c : Char) (rem : List Char) (hq : ¬ c = '"')
    (hb : ¬ c = '\\') :
    parseStringBody (c :: rem) = (parseStringBody rem).map (fun p => (c :: p.1, p.2)) := by
  conv_lhs => unfold parseStringBody
  rw [if_neg hq, if_neg hb]

theorem parseStringBody_esc (e : Char) (c2 : Char) (rem : List Char)
    (he : ¬ e = 'u') (hu : unescape e = some c2) :
    parseStringBody ('\\' :: e :: rem)
      = (parseStringBody rem).map (fun p => (c2 :: p.1, p.2)) := by
  conv_lhs => unfold parseStringBody
  rw [if_neg (by decide : ¬('\\' : Char) = '"'), if_pos rfl]
  dsimp only
  rw [if_neg he, hu]

theorem parseStringBody_u (a b c d : Nat) (ha : a < 16) (hb : b < 16) (hc : c < 16)
    (hd : d < 16) (rem : List Char) :
    parseStringBody ('\\' :: 'u' :: hexDigit a :: hexDigit b :: hexDigit c :: hexDigit d :: rem)
      = (parseStringBody rem).map
          (fun p => (Char.ofNat (((a * 16 + b) * 16 + c) * 16 + d) :: p.1, p.2)) := by
  conv_lhs => unfold parseStringBody
  rw [if_neg (by decide : ¬('\\' : Char) = '"'), if_pos rfl]
  dsimp only
  rw [if_pos rfl]
  rw [parseHex_hexDigit a ha, parseHex_hexDigit b hb, parseHex_hexDigit c hc,
    parseHex_hexDigit d hd]

theorem parseStringBody_escChar (c : Char) (rem : List Char) :
    parseStringBody (escChar c ++ rem) = (parseStringBody rem).map (fun p => (c :: p.1, p.2)) := by
  unfold escChar
  split_ifs with h1 h2 h3 h4 h5 h6 h7 h8
  · subst h1
    rw [show (['\\', '"'] : List Char) ++ rem = '\\' :: '"' :: rem from rfl]
    rw [parseStringBody_esc '"' '"' rem (by decide) (by decide)]
  · subst h2
    rw [show (['\\', '\\'] : List Char) ++ rem = '\\' :: '\\' :: rem from rfl]
    rw [parseStringBody_esc '\\' '\\' rem (by decide) (by decide)]
  · subst h3
    rw [show (['\\', 'n'] : List Char) ++ rem = '\\' :: 'n' :: rem from rfl]
    rw [parseStringBody_esc 'n' '\n' rem (by decide) (by decide)]
  · subst h4
    rw [show (['\\', 'r'] : List Char) ++ rem = '\\' :: 'r' :: rem from rfl]
    rw [parseStringBody_esc 'r' '\r' rem (by decide) (by decide)]
  · subst h5
    rw [show (['\\', 't'] : List Char) ++ rem = '\\' :: 't' :: rem from rfl]
    rw [parseStringBody_esc 't' '\t' rem (by decide) (by decide)]
  · rw [h6]
    rw [show (['\\', 'b'] : List Char) ++ rem = '\\' :: 'b' :: rem from rfl]
    rw [parseStringBody_esc 'b' (Char.ofNat 8) rem (by decide) (by decide)]
  · rw [h7]
    rw [show (['\\', 'f'] : List Char) ++ rem = '\\' :: 'f' :: rem from rfl]
    rw [parseStringBody_esc 'f' (Char.ofNat 12) rem (by decide) (by decide)]
  · rw [show (['\\', 'u', '0', '0', hexDigit (c.toNat / 16), hexDigit (c.toNat % 16)] : List Char)
          ++ rem
        = '\\' :: 'u' :: '0' :: '0' :: hexDigit (c.toNat / 16) :: hexDigit (c.toNat % 16)
          :: rem from rfl]
    rw [show ('0' : Char) = hexDigit 0 from by decide]
    rw [parseStringBody_u 0 0 (c.toNat / 16) (c.toNat % 16) (by omega) (by omega)
      (by omega) (by omega)]
    rw [show ((0 * 16 + 0) * 16 + c.toNat / 16) * 16 + c.toNat % 16 = c.toNat from by omega]
    rw [charOfNat_toNat c]
  · rw [show ([c] : List Char) ++ rem = c :: rem from rfl]
    rw [parseStringBody_plain c _ h1 h2]

theorem parseStringBody_escape (s : List Char) (rest : List Char) :
    parseStringBody ((s.map escChar).flatten ++ '"' :: rest) = some (s, rest) := by
  induction s with
  | nil =>
    simp only [List.map_nil, List.flatten_nil, List.nil_append]
    exact parseStringBody_quote rest
  | cons c cs ih =>
    rw [List.map_cons, List.flatten_cons, List.append_assoc]
    rw [parseStringBody_escChar c _, ih]
    rfl

theorem natToDec_ne_nil (n : Nat) : natToDec n ≠ [] := by
  unfold natToDec
  split <;> simp

theorem digitChar_isDigit (m : Nat) (h : m < 10) : (Char.ofNat (48 + m)).isDigit = true := by
  interval_cases m <;> decide

theorem digitVal (m : Nat) (h : m < 10) : (Char.ofNat (48 + m)).toNat - 48 = m := by
  interval_cases m <;> decide

theorem natToDec_digits (n : Nat) : ∀ c ∈ natToDec n, c.isDigit = true := by
  induction n using Nat.strong_induction_on with
  | _ n ih =>
    unfold natToDec
    split
    · next h =>
      intro c hc
      rw [List.mem_singleton] at hc
      subst hc
      exact digitChar_isDigit n h
    · next h =>
      intro c hc
      rcases List.mem_append.mp hc with h2 | h2
      · exact ih (n / 10) (Nat.div_lt_self (by omega) (by omega)) c h2
      · rw [List.mem_singleton] at h2
        subst h2
        exact digitChar_isDigit _ (Nat.mod_lt _ (by omega))

theorem digitsToNat_append_digit (l : List Char) (c : Char) :
    digitsToNat (l ++ [c]) = digitsToNat l * 10 + (c.toNat - 48) := by
  unfold digitsToNat
  rw [List.foldl_append]
  rfl

theorem digitsToNat_natToDec (n : Nat) : digitsToNat (natToDec n) = n := by
  induction n using Nat.strong_induction_on with
  | _ n ih =>
    unfold natToDec
    split
    · next h =>
      rw [show [Char.ofNat (48 + n)] = [] ++ [Char.ofNat (48 + n)] from rfl,
        digitsToNat_append_digit, digitVal n h]
      simp [digitsToNat]
    · next h =>
      rw [digitsToNat_append_digit, ih (n / 10) (Nat.div_lt_self (by omega) (by omega)),
        digitVal (n % 10) (Nat.mod_lt _ (by omega))]
      omega

theorem takeWhile_all_append (p : Char → Bool) (l la : List Char)
    (h : ∀ c ∈ l, p c = true)
    (h2 : match la with | [] => True | c :: _ => p c = false) :
    (l ++ la).takeWhile p = l ∧ (l ++ la).dropWhile p = la := by
  induction l with
  | nil =>
    simp only [List.nil_append]
    cases la with
    | nil => exact ⟨rfl, rfl⟩
    | cons c cs =>
      simp only at h2
      simp [List.takeWhile_cons, List.dropWhile_cons, h2]
  | cons a l ih =>
    have ha := h a (List.mem_cons_self a l)
    have hrec := ih (fun c hc => h c (List.mem_cons_of_mem a hc))
    simp only [List.cons_append, List.takeWhile_cons, List.dropWhile_cons, ha]
    simp [hrec.1, hrec.2]

theorem parseNumber_natToDec (n : Nat) (rest : List Char) (h : headNotDigit rest) :
    parseNumber (natToDec n ++ rest) = some ((n : Int), rest) := by
  have hd := natToDec_digits n
  have hne := natToDec_ne_nil n
  have htw := takeWhile_all_append Char.isDigit (natToDec n) rest hd
    (by unfold headNotDigit at h; exact h)
  obtain ⟨c, cs, hcons⟩ : ∃ c cs, natToDec n = c :: cs := by
    cases hnd : natToDec n with
    | nil => exact absurd hnd hne
    | cons c cs => exact ⟨c, cs, rfl⟩
  have hcd : c.isDigit = true := hd c (by rw [hcons]; exact List.mem_cons_self c cs)
  have hcm : ¬ c = '-' := by
    intro hcm
    rw [hcm] at hcd
    exact absurd hcd (by decide)
  rw [hcons] at htw ⊢
  rw [List.cons_append]
  conv_lhs => unfold parseNumber
  dsimp only
  rw [if_neg hcm]
  rw [← List.cons_append, htw.1, htw.2, if_neg (by rw [← hcons]; exact hne)]
  rw [← hcons, digitsToNat_natToDec]

theorem parseNumber_encInt (n : Int) (rest : List Char) (h : headNotDigit rest) :
    parseNumber (encInt n ++ rest) = some (n, rest) := by
  unfold encInt
  split
  · next hneg =>
    rw [List.cons_append]
    have hd := natToDec_digits n.natAbs
    have hne := natToDec_ne_nil n.natAbs
    have htw := takeWhile_all_append Char.isDigit (natToDec n.natAbs) rest hd
      (by unfold headNotDigit at h; exact h)
    conv_lhs => unfold parseNumber
    dsimp only
    rw [if_pos rfl]
    rw [htw.1, htw.2, if_neg hne, digitsToNat_natToDec]
    simp only [Option.some.injEq, Prod.mk.injEq]
    exact ⟨by omega, trivial⟩
  · next hpos =>
    rw [parseNumber_natToDec n.toNat rest h]
    simp only [Option.some.injEq, Prod.mk.injEq]
    exact ⟨by omega, trivial⟩

theorem jfuel_pos (j : Json) : 1 ≤ jfuel j := by
  unfold jfuel
  split <;> omega

theorem ffuel_pos (fs : List (String × Json)) : 1 ≤ ffuel fs := by
  unfold ffuel
  split <;> omega

theorem skipWs_cons (c : Char) (l : List Char) (h : isWsChar c = false) :
    skipWs (c :: l) = c :: l := by
  simp [skipWs, h]

theorem digit_not_ws (c : Char) (h : c.isDigit = true) : isWsChar c = false := by
  unfold isWsChar
  rw [decide_eq_false_iff_not]
  rintro (rfl | rfl | rfl | rfl) <;> exact absurd h (by decide)

theorem parseVal_quote (fuel : Nat) (X : List Char) :
    parseVal (fuel + 1) ('"' :: X)
      = (parseStringBody X).map (fun p => (Json.str ⟨p.1⟩, p.2)) := rfl

theorem parseVal_true (fuel : Nat) (X : List Char) :
    parseVal (fuel + 1) ('t' :: 'r' :: 'u' :: 'e' :: X) = some (.bool true, X) := rfl

theorem parseVal_false (fuel : Nat) (X : List Char) :
    parseVal (fuel + 1) ('f' :: 'a' :: 'l' :: 's' :: 'e' :: X) = some (.bool false, X) := rfl

theorem parseVal_null (fuel : Nat) (X : List Char) :
    parseVal (fuel + 1) ('n' :: 'u' :: 'l' :: 'l' :: X) = some (.null, X) := rfl

theorem parseVal_obj_empty (fuel : Nat) (rest : List Char) :
    parseVal (fuel + 1) ('{' :: '}' :: rest) = some (.obj [], rest) := rfl

theorem parseVal_obj_members (fuel : Nat) (X : List Char) :
    parseVal (fuel + 1) ('{' :: '"' :: X)
      = (parseMembers fuel ('"' :: X)).map (fun p => (Json.obj p.1, p.2)) := rfl

theorem parseVal_encInt (fuel : Nat) (n : Int) (rest : List Char) (h : headNotDigit rest) :
    parseVal (fuel + 1) (encInt n ++ rest) = some (.num n, rest) := by
  obtain ⟨c, cs, hc, hcd⟩ : ∃ c cs, encInt n ++ rest = c :: cs ∧ (c.isDigit = true ∨ c = '-') := by
    unfold encInt
    split
    · exact ⟨'-', natToDec n.natAbs ++ rest, rfl, Or.inr rfl⟩
    · obtain ⟨c, cs, hcons⟩ : ∃ c cs, natToDec n.toNat = c :: cs := by
        cases hnd : natToDec n.toNat with
        | nil => exact absurd hnd (natToDec_ne_nil _)
        | cons c cs => exact ⟨c, cs, rfl⟩
      refine ⟨c, cs ++ rest, by rw [hcons, List.cons_append], Or.inl ?_⟩
      exact natToDec_digits n.toNat c (by rw [hcons]; exact List.mem_cons_self c cs)
  have hws : isWsChar c = false := by
    rcases hcd with h2 | h2
    · exact digit_not_ws c h2
    · subst h2; decide
  conv_lhs => unfold parseVal
  rw [hc, skipWs_cons c cs hws]
  split
  · next heq =>
    rw [List.cons.injEq] at heq
    rcases hcd with h2 | h2
    · rw [heq.1] at h2; exact absurd h2 (by decide)
    · rw [heq.1] at h2; exact absurd h2 (by decide)
  · next heq =>
    rw [List.cons.injEq] at heq
    rcases hcd with h2 | h2
    · rw [heq.1] at h2; exact absurd h2 (by decide)
    · rw [heq.1] at h2; exact absurd h2 (by decide)
  · next heq =>
    rw [List.cons.injEq] at heq
    rcases hcd with h2 | h2
    · rw [heq.1] at h2; exact absurd h2 (by decide)
    · rw [heq.1] at h2; exact absurd h2 (by decide)
  · next heq =>
    rw [List.cons.injEq] at heq
    rcases hcd with h2 | h2
    · rw [heq.1] at h2; exact absurd h2 (by decide)
    · rw [heq.1] at h2; exact absurd h2 (by decide)
  · next heq =>
    rw [List.cons.injEq] at heq
    rcases hcd with h2 | h2
    · rw [heq.1] at h2; exact absurd h2 (by decide)
    · rw [heq.1] at h2; exact absurd h2 (by decide)
  · rw [← hc, parseNumber_encInt n rest h]
    rfl

theorem parseMembers_quote (fuel : Nat) (X : List Char) :
    parseMembers (fuel + 1) ('"' :: X)
      = (match parseStringBody X with
         | none => none
         | some (key, r1) =>
           match skipWs r1 with
           | ':' :: r2 =>
             match parseVal fuel r2 with
             | none => none
             | some (v, r3) =>
               match skipWs r3 with
               | ',' :: r4 =>
                 (parseMembers fuel r4).map (fun p => ((String.mk key, v) :: p.1, p.2))
               | '}' :: r4 => some ([(String.mk key, v)], r4)
               | _ => none
           | _ => none) := rfl

theorem parse_encode :
    (∀ j : Json, ∀ fuel, jfuel j ≤ fuel → ∀ rest, headNotDigit rest →
        parseVal fuel (jsonEncode j ++ rest) = some (j, rest)) ∧
    (∀ fs : List (String × Json), ∀ fuel, ffuel fs ≤ fuel → fs ≠ [] → ∀ rest,
        parseMembers fuel (encFields fs ++ '}' :: rest) = some (fs, rest)) := by
  refine json_induction _ _ ?_ ?_ ?_ ?_ ?_ ?_ ?_
  · intro s fuel hf rest hrest
    rcases fuel with _ | f
    · exact absurd hf (by simp [jfuel])
    · have hshape : jsonEncode (.str s) ++ rest = '"' :: (escString s ++ '"' :: rest) := by
        show ('"' :: (escString s ++ ['"'])) ++ rest = _
        simp [List.cons_append, List.append_assoc]
      rw [hshape, parseVal_quote]
      rw [show escString s = (s.data.map escChar).flatten from rfl, parseStringBody_escape]
      rfl
  · intro n fuel hf rest hrest
    rcases fuel with _ | f
    · exact absurd hf (by simp [jfuel])
    · exact parseVal_encInt f n rest hrest
  · intro b fuel hf rest hrest
    rcases fuel with _ | f
    · exact absurd hf (by simp [jfuel])
    · cases b
      · exact parseVal_false f rest
      · exact parseVal_true f rest
  · intro fuel hf rest hrest
    rcases fuel with _ | f
    · exact absurd hf (by simp [jfuel])
    · exact parseVal_null f rest
  · intro fs hQ fuel hf rest hrest
    rcases fuel with _ | f
    · have := jfuel_pos (.obj fs)
      omega
    · cases fs with
      | nil =>
        have hshape : jsonEncode (.obj []) ++ rest = '{' :: '}' :: rest := rfl
        rw [hshape, parseVal_obj_empty]
      | cons p rest2 =>
        rcases p with ⟨k, v⟩
        obtain ⟨Y, hY⟩ : ∃ Y, encFields ((k, v) :: rest2) = '"' :: Y := by
          cases rest2 with
          | nil =>
            refine ⟨escString k ++ '"' :: ':' :: jsonEncode v, ?_⟩
            show encStr k ++ (':' :: jsonEncode v) = _
            rw [show encStr k = '"' :: (escString k ++ ['"']) from rfl]
            simp [List.cons_append, List.append_assoc]
          | cons p2 ps =>
            refine ⟨(escString k ++ '"' :: ':' :: jsonEncode v) ++ ',' :: encFields (p2 :: ps), ?_⟩
            show (encStr k ++ (':' :: jsonEncode v)) ++ (',' :: encFields (p2 :: ps)) = _
            rw [show encStr k = '"' :: (escString k ++ ['"']) from rfl]
            simp [List.cons_append, List.append_assoc]
        have hff : ffuel ((k, v) :: rest2) ≤ f := by
          have : jfuel (Json.obj ((k, v) :: rest2)) = ffuel ((k, v) :: rest2) + 1 := rfl
          omega
        have hshape : jsonEncode (.obj ((k, v) :: rest2)) ++ rest
            = '{' :: '"' :: (Y ++ '}' :: rest) := by
          show ('{' :: (encFields ((k, v) :: rest2) ++ ['}'])) ++ rest = _
          rw [hY]
          simp [List.cons_append, List.append_assoc]
        rw [hshape, parseVal_obj_members]
        have hmem : ('"' :: (Y ++ '}' :: rest)) = encFields ((k, v) :: rest2) ++ '}' :: rest := by
          rw [hY, List.cons_append]
        rw [hmem, hQ f hff (by simp) rest]
        rfl
  · intro fuel hf hne rest
    exact absurd rfl hne
  · intro k v rest2 hPv hQrest fuel hf hne rest
    rcases fuel with _ | f
    · have h1 := ffuel_pos ((k, v) :: rest2)
      omega
    · have hffuel : ffuel ((k, v) :: rest2) = jfuel v + ffuel rest2 + 1 := rfl
      have hfr := ffuel_pos rest2
      cases rest2 with
      | nil =>
        have hshape : encFields [(k, v)] ++ '}' :: rest
            = '"' :: (escString k ++ '"' :: ':' :: (jsonEncode v ++ '}' :: rest)) := by
          show (encStr k ++ (':' :: jsonEncode v)) ++ '}' :: rest = _
          rw [show encStr k = '"' :: (escString k ++ ['"']) from rfl]
          simp [List.cons_append, List.append_assoc]
        rw [hshape, parseMembers_quote]
        rw [show escString k = (k.data.map escChar).flatten from rfl]
        rw [show ((k.data.map escChar).flatten ++ '"' :: ':' :: (jsonEncode v ++ '}' :: rest))
            = ((k.data.map escChar).flatten ++ '"' :: (':' :: (jsonEncode v ++ '}' :: rest)))
          from rfl]
        rw [parseStringBody_escape]
        show (match skipWs (':' :: (jsonEncode v ++ '}' :: rest)) with
              | ':' :: r2 =>
                match parseVal f r2 with
                | none => none
                | some (v2, r3) =>
                  match skipWs r3 with
                  | ',' :: r4 =>
                    (parseMembers f r4).map (fun p => ((String.mk k.data, v2) :: p.1, p.2))
                  | '}' :: r4 => some ([(String.mk k.data, v2)], r4)
                  | _ => none
              | _ => none) = some ([(k, v)], rest)
        rw [skipWs_cons _ _ (by decide)]
        show (match parseVal f (jsonEncode v ++ '}' :: rest) with
              | none => none
              | some (v2, r3) =>
                match skipWs r3 with
                | ',' :: r4 =>
                  (parseMembers f r4).map (fun p => ((String.mk k.data, v2) :: p.1, p.2))
                | '}' :: r4 => some ([(String.mk k.data, v2)], r4)
                | _ => none) = some ([(k, v)], rest)
        rw [hPv f (by omega) ('}' :: rest) (by
          show ('}' : Char).isDigit = false
          decide)]
        show (match skipWs ('}' :: rest) with
              | ',' :: r4 =>
                (parseMembers f r4).map (fun p => ((String.mk k.data, v) :: p.1, p.2))
              | '}' :: r4 => some ([(String.mk k.data, v)], r4)
              | _ => none) = some ([(k, v)], rest)
        rw [skipWs_cons _ _ (by decide)]
        rfl
      | cons p2 ps =>
        have hshape : encFields ((k, v) :: p2 :: ps) ++ '}' :: rest
            = '"' :: (escString k ++ '"' :: ':' :: (jsonEncode v
                ++ ',' :: (encFields (p2 :: ps) ++ '}' :: rest))) := by
          show ((encStr k ++ (':' :: jsonEncode v)) ++ (',' :: encFields (p2 :: ps)))
              ++ '}' :: rest = _
          rw [show encStr k = '"' :: (escString k ++ ['"']) from rfl]
          simp [List.cons_append, List.append_assoc]
        rw [hshape, parseMembers_quote]
        rw [show escString k = (k.data.map escChar).flatten from rfl]
        rw [show ((k.data.map escChar).flatten
              ++ '"' :: ':' :: (jsonEncode v ++ ',' :: (encFields (p2 :: ps) ++ '}' :: rest)))
            = ((k.data.map escChar).flatten
              ++ '"' :: (':' :: (jsonEncode v ++ ',' :: (encFields (p2 :: ps) ++ '}' :: rest))))
          from rfl]
        rw [parseStringBody_escape]
        show (match skipWs (':' :: (jsonEncode v ++ ',' :: (encFields (p2 :: ps) ++ '}' :: rest))) with
              | ':' :: r2 =>
                match parseVal f r2 with
                | none => none
                | some (v2, r3) =>
                  match skipWs r3 with
                  | ',' :: r4 =>
                    (parseMembers f r4).map (fun p => ((String.mk k.data, v2) :: p.1, p.2))
                  | '}' :: r4 => some ([(String.mk k.data, v2)], r4)
                  | _ => none
              | _ => none) = some ((k, v) :: p2 :: ps, rest)
        rw [skipWs_cons _ _ (by decide)]
        show (match parseVal f (jsonEncode v ++ ',' :: (encFields (p2 :: ps) ++ '}' :: rest)) with
              | none => none
              | some (v2, r3) =>
                match skipWs r3 with
                | ',' :: r4 =>
                  (parseMembers f r4).map (fun p => ((String.mk k.data, v2) :: p.1, p.2))
                | '}' :: r4 => some ([(String.mk k.data, v2)], r4)
                | _ => none) = some ((k, v) :: p2 :: ps, rest)
        rw [hPv f (by omega) (',' :: (encFields (p2 :: ps) ++ '}' :: rest)) (by
          show (',' : Char).isDigit = false
          decide)]
        show (match skipWs (',' :: (encFields (p2 :: ps) ++ '}' :: rest)) with
              | ',' :: r4 =>
                (parseMembers f r4).map (fun p => ((String.mk k.data, v) :: p.1, p.2))
              | '}' :: r4 => some ([(String.mk k.data, v)], r4)
              | _ => none) = some ((k, v) :: p2 :: ps, rest)
        rw [skipWs_cons _ _ (by decide)]
        show (parseMembers f (encFields (p2 :: ps) ++ '}' :: rest)).map
            (fun p => ((String.mk k.data, v) :: p.1, p.2)) = some ((k, v) :: p2 :: ps, rest)
        rw [hQrest f (by omega) (by simp) rest]
        rfl

theorem encStr_length (s : String) : 2 ≤ (encStr s).length := by
  show 2 ≤ ('"' :: (escString s ++ ['"'])).length
  simp

theorem encInt_ne_nil (n : Int) : encInt n ≠ [] := by
  unfold encInt
  split
  · simp
  · exact natToDec_ne_nil _

theorem jfuel_le_encLength :
    (∀ j : Json, jfuel j ≤ (jsonEncode j).length) ∧
    (∀ fs : List (String × Json), ffuel fs ≤ (encFields fs).length + 1) := by
  refine json_induction _ _ ?_ ?_ ?_ ?_ ?_ ?_ ?_
  · intro s
    have := encStr_length s
    show jfuel (.str s) ≤ (encStr s).length
    rw [show jfuel (.str s) = 1 from rfl]
    omega
  · intro n
    have h1 : encInt n ≠ [] := encInt_ne_nil n
    have h2 : 0 < (encInt n).length := List.length_pos.mpr h1
    show jfuel (.num n) ≤ (encInt n).length
    rw [show jfuel (.num n) = 1 from rfl]
    omega
  · intro b
    cases b <;> decide
  · decide
  · intro fs hQ
    show jfuel (.obj fs) ≤ ('{' :: (encFields fs ++ ['}'])).length
    rw [show jfuel (.obj fs) = ffuel fs + 1 from rfl]
    simp only [List.length_cons, List.length_append, List.length_singleton]
    omega
  · decide
  · intro k v rest2 hPv hQrest
    have hs := encStr_length k
    cases rest2 with
    | nil =>
      show ffuel [(k, v)] ≤ (encStr k ++ (':' :: jsonEncode v)).length + 1
      rw [show ffuel [(k, v)] = jfuel v + ffuel [] + 1 from rfl,
        show ffuel ([] : List (String × Json)) = 1 from rfl]
      simp only [List.length_append, List.length_cons]
      omega
    | cons p2 ps =>
      show ffuel ((k, v) :: p2 :: ps)
          ≤ ((encStr k ++ (':' :: jsonEncode v)) ++ (',' :: encFields (p2 :: ps))).length + 1
      rw [show ffuel ((k, v) :: p2 :: ps) = jfuel v + ffuel (p2 :: ps) + 1 from rfl]
      simp only [List.length_append, List.length_cons] at hQrest ⊢
      omega

theorem jsonParse_encode (j : Json) : jsonParse (jsonEncode j) = some j := by
  unfold jsonParse
  have hb : jfuel j ≤ (jsonEncode j).length + 1 :=
    le_trans (jfuel_le_encLength.1 j) (by omega)
  have h1 := parse_encode.1 j ((jsonEncode j).length + 1) hb [] (by trivial)
  rw [List.append_nil] at h1
  rw [h1]
  rfl

theorem hexDigit_ne_newline (m : Nat) (h : m < 16) : ¬ hexDigit m = '\n' := by
  interval_cases m <;> decide

theorem escChar_no_newline (c : Char) : '\n' ∉ escChar c := by
  unfold escChar
  split_ifs with h1 h2 h3 h4 h5 h6 h7 h8
  · decide
  · decide
  · decide
  · decide
  · decide
  · decide
  · decide
  · intro hmem
    simp only [List.mem_cons, List.not_mem_nil, or_false] at hmem
    rcases hmem with h | h | h | h | h | h
    · exact absurd h.symm (by decide)
    · exact absurd h.symm (by decide)
    · exact absurd h.symm (by decide)
    · exact absurd h.symm (by decide)
    · exact absurd h.symm (hexDigit_ne_newline _ (by omega))
    · exact absurd h.symm (hexDigit_ne_newline _ (by omega))
  · intro hmem
    simp only [List.mem_cons, List.not_mem_nil, or_false] at hmem
    exact h3 hmem.symm

theorem encStr_no_newline (s : String) : '\n' ∉ encStr s := by
  intro hmem
  rcases List.mem_cons.mp hmem with h | h
  · exact absurd h.symm (by decide)
  · rcases List.mem_append.mp h with h2 | h2
    · rcases List.mem_flatten.mp h2 with ⟨l, hl, hcl⟩
      rcases List.mem_map.mp hl with ⟨c, _, hc⟩
      rw [← hc] at hcl
      exact escChar_no_newline c hcl
    · rw [List.mem_singleton] at h2
      exact absurd h2.symm (by decide)

theorem natToDec_no_newline (n : Nat) : '\n' ∉ natToDec n := by
  intro hmem
  have := natToDec_digits n '\n' hmem
  exact absurd this (by decide)

theorem encInt_no_newline (n : Int) : '\n' ∉ encInt n := by
  unfold encInt
  split
  · intro hmem
    rcases List.mem_cons.mp hmem with h | h
    · exact absurd h.symm (by decide)
    · exact natToDec_no_newline _ h
  · exact natToDec_no_newline _

theorem encode_no_newline :
    (∀ j : Json, '\n' ∉ jsonEncode j) ∧
    (∀ fs : List (String × Json), '\n' ∉ encFields fs) := by
  refine json_induction _ _ ?_ ?_ ?_ ?_ ?_ ?_ ?_
  · exact fun s => encStr_no_newline s
  · exact fun n => encInt_no_newline n
  · intro b
    cases b <;> decide
  · decide
  · intro fs hQ hmem
    rcases List.mem_cons.mp hmem with h | h
    · exact absurd h.symm (by decide)
    · rcases List.mem_append.mp h with h2 | h2
      · exact hQ h2
      · rw [List.mem_singleton] at h2
        exact absurd h2.symm (by decide)
  · exact List.not_mem_nil '\n'
  · intro k v rest2 hPv hQrest
    cases rest2 with
    | nil =>
      show '\n' ∉ encStr k ++ (':' :: jsonEncode v)
      intro hmem
      rcases List.mem_append.mp hmem with h | h
      · exact encStr_no_newline k h
      · rcases List.mem_cons.mp h with h2 | h2
        · exact absurd h2.symm (by decide)
        · exact hPv h2
    | cons p2 ps =>
      show '\n' ∉ (encStr k ++ (':' :: jsonEncode v)) ++ (',' :: encFields (p2 :: ps))
      intro hmem
      rcases List.mem_append.mp hmem with h | h
      · rcases List.mem_append.mp h with h2 | h2
        · exact encStr_no_newline k h2
        · rcases List.mem_cons.mp h2 with h3 | h3
          · exact absurd h3.symm (by decide)
          · exact hPv h3
      · rcases List.mem_cons.mp h with h2 | h2
        · exact absurd h2.symm (by decide)
        · exact hQrest h2

theorem jsonEncode_obj_head (fs : List (String × Json)) :
    ∃ Z, jsonEncode (.obj fs) = '{' :: Z := ⟨encFields fs ++ ['}'], rfl⟩

/-! ## Backup lemmas: line structure, parsing back, and the roundtrip -/

theorem splitOnChar_no_sep (l : List Char) (h : '\n' ∉ l) :
    splitOnChar '\n' l = [l] := by
  induction l with
  | nil => rfl
  | cons c cs ih =>
    have hc : ¬ c = '\n' := fun hceq => h (hceq ▸ List.mem_cons_self c cs)
    have hcs : '\n' ∉ cs := fun hm => h (List.mem_cons_of_mem c hm)
    simp only [splitOnChar, ih hcs, if_neg hc]

theorem splitOnChar_sep_append (a b : List Char) (ha : '\n' ∉ a) :
    splitOnChar '\n' (a ++ '\n' :: b) = a :: splitOnChar '\n' b := by
  induction a with
  | nil => simp [splitOnChar]
  | cons c cs ih =>
    have hc : ¬ c = '\n' := fun hceq => ha (hceq ▸ List.mem_cons_self c cs)
    have hcs : '\n' ∉ cs := fun hm => ha (List.mem_cons_of_mem c hm)
    show splitOnChar '\n' (c :: (cs ++ '\n' :: b)) = (c :: cs) :: splitOnChar '\n' b
    simp only [splitOnChar, ih hcs, if_neg hc]

theorem splitOnChar_joinLines (ls : List (List Char)) (hne : ls ≠ [])
    (h : ∀ l ∈ ls, '\n' ∉ l) :
    splitOnChar '\n' (joinLines ls) = ls := by
  induction ls with
  | nil => exact absurd rfl hne
  | cons l rest ih =>
    cases rest with
    | nil => exact splitOnChar_no_sep l (h l (List.mem_cons_self l []))
    | cons l2 rest2 =>
      show splitOnChar '\n' (l ++ '\n' :: joinLines (l2 :: rest2)) = l :: l2 :: rest2
      rw [splitOnChar_sep_append _ _ (h l (List.mem_cons_self l (l2 :: rest2)))]
      rw [ih (by simp) (fun x hx => h x (List.mem_cons_of_mem l hx))]

theorem jsTrim_cons_ne_nil (c : Char) (l : List Char) (h : isWsChar c = false) :
    jsTrim (c :: l) ≠ [] := by
  unfold jsTrim
  rw [List.dropWhile_cons, if_neg (by simp [h])]
  intro hnil
  rw [List.reverse_eq_nil_iff, List.dropWhile_eq_nil_iff] at hnil
  have hc := hnil c (by simp)
  simp [h] at hc

theorem jsTrim_brace (Z : List Char) : (jsTrim ('{' :: Z)).isEmpty = false := by
  have hne := jsTrim_cons_ne_nil '{' Z (by decide)
  cases hE : jsTrim ('{' :: Z) with
  | nil => exact absurd hE hne
  | cons a as => rfl

theorem backupLines (header : List Char) (docLines : List (List Char))
    (hh : ∃ Z, header = '{' :: Z)
    (hd : ∀ l ∈ docLines, ∃ Z, l = '{' :: Z)
    (hhn : '\n' ∉ header)
    (hdn : ∀ l ∈ docLines, '\n' ∉ l) :
    (splitOnChar '\n' (header ++ '\n' :: joinLines docLines)).filter
        (fun l => !(jsTrim l).isEmpty) = header :: docLines := by
  rw [splitOnChar_sep_append _ _ hhn]
  have hfh : (fun l => !(jsTrim l).isEmpty) header = true := by
    obtain ⟨Z, hZ⟩ := hh
    subst hZ
    simp [jsTrim_brace]
  cases docLines with
  | nil =>
    show List.filter _ (header :: splitOnChar '\n' []) = [header]
    rw [show splitOnChar '\n' ([] : List Char) = [[]] from rfl]
    rw [List.filter_cons, if_pos hfh]
    rw [show List.filter (fun l => !(jsTrim l).isEmpty) [[]] = [] from rfl]
  | cons l2 rest2 =>
    rw [splitOnChar_joinLines _ (by simp) hdn]
    apply List.filter_eq_self.mpr
    intro a ha
    rcases List.mem_cons.mp ha with h1 | h1
    · exact h1 ▸ hfh
    · obtain ⟨Z, hZ⟩ := hd a h1
      subst hZ
      simp [jsTrim_brace]

theorem parseDocLines_encode (ds : List StoredDoc) :
    parseDocLines (ds.map (fun d => jsonEncode (docJson d)))
      = some (ds.map (fun d => docOfJson (docJson d))) := by
  induction ds with
  | nil => rfl
  | cons d rest ih =>
    show parseDocLines (jsonEncode (docJson d) :: rest.map _) = _
    unfold parseDocLines
    rw [jsonParse_encode, ih]
    rfl

theorem parseDocLines_eq_none_iff (ls : List (List Char)) :
    parseDocLines ls = none ↔ ∃ l ∈ ls, jsonParse l = none := by
  induction ls with
  | nil => simp [parseDocLines]
  | cons l rest ih =>
    unfold parseDocLines
    cases hj : jsonParse l with
    | none => simp [hj]
    | some j =>
      simp only [Option.map_eq_none', ih, List.mem_cons]
      constructor
      · intro hex
        obtain ⟨x, hx1, hx2⟩ := hex
        exact ⟨x, Or.inr hx1, hx2⟩
      · intro hex
        obtain ⟨x, hx1, hx2⟩ := hex
        rcases hx1 with hx1 | hx1
        · rw [hx1] at hx2
          rw [hj] at hx2
          exact absurd hx2 (by simp)
        · exact ⟨x, hx1, hx2⟩

theorem docOfJson_docJson (d : StoredDoc) :
    docOfJson (docJson d)
      = { id := d.id, content := d.content,
          metadata := (d.metadata.map (fun kv => (kv.1, sanJson kv.2))).map
            (fun kv => (kv.1, metaValOfJson kv.2)),
          embedding := none } := rfl

theorem docOfJson_embedding (j : Json) : (docOfJson j).embedding = none := by
  cases j <;> rfl

theorem sanitize_inj (md : SanMetadata) :
    sanitizeMetadata (md.map (fun kv => (kv.1, metaValOfJson (sanJson kv.2)))) = md := by
  rw [sanitizeMetadata_eq_filterMap]
  induction md with
  | nil => rfl
  | cons kv rest ih =>
    rcases kv with ⟨k, v⟩
    cases v <;> simpa [sanJson, metaValOfJson, sanitizeOne] using ih

theorem chromaAdd_split (st : Store) (l1 l2 : List StoredDoc) :
    chromaAdd st (l1 ++ l2) = chromaAdd (chromaAdd st l1) l2 := by
  simp [chromaAdd, List.foldl_append]

theorem chromaAdd_fresh (st : Store) (ds : List StoredDoc)
    (hdisj : ∀ d ∈ ds, ∀ x ∈ st, x.id ≠ d.id)
    (hnd : (ds.map StoredDoc.id).Nodup) :
    chromaAdd st ds = st ++ ds := by
  induction ds generalizing st with
  | nil => simp [chromaAdd]
  | cons d rest ih =>
    show chromaAdd (upsertDoc st d) rest = st ++ d :: rest
    have hany : (st.any fun x => x.id == d.id) = false := by
      rw [List.any_eq_false]
      intro x hx hbeq
      exact hdisj d (List.mem_cons_self d rest) x hx (by simpa using hbeq)
    have hup : upsertDoc st d = st ++ [d] := by
      unfold upsertDoc
      rw [hany]
      rfl
    rw [hup]
    rw [ih (st ++ [d]) ?_ (List.Nodup.of_cons hnd)]
    · simp
    · intro d2 hd2 x hx
      rcases List.mem_append.mp hx with hx1 | hx1
      · exact hdisj d2 (List.mem_cons_of_mem d hd2) x hx1
      · rw [List.mem_singleton.mp hx1]
        intro hxeq
        have hmem : d.id ∈ rest.map StoredDoc.id := by
          rw [hxeq]
          exact List.mem_map_of_mem StoredDoc.id hd2
        exact (List.nodup_cons.mp (by simpa using hnd)).1 hmem

theorem chunk100Go_spec (fuel : Nat) :
    ∀ l : List VectorDocument, l.length ≤ fuel →
      (chunk100Go fuel l).flatten = l ∧ ∀ b ∈ chunk100Go fuel l, b ≠ [] := by
  induction fuel with
  | zero =>
    intro l hl
    cases l with
    | nil => exact ⟨rfl, by simp [chunk100Go]⟩
    | cons a as => simp at hl
  | succ fuel ih =>
    intro l hl
    cases l with
    | nil => exact ⟨rfl, by simp [chunk100Go]⟩
    | cons d rest =>
      have hlen : ((d :: rest).drop 100).length ≤ fuel := by
        simp only [List.length_drop, List.length_cons]
        simp only [List.length_cons] at hl
        omega
      obtain ⟨h1, h2⟩ := ih ((d :: rest).drop 100) hlen
      constructor
      · show ((d :: rest).take 100 ++ (chunk100Go fuel ((d :: rest).drop 100)).flatten) = d :: rest
        rw [h1, List.take_append_drop]
      · intro b hb
        rcases List.mem_cons.mp hb with hb1 | hb1
        · rw [hb1]
          simp
        · exact h2 b hb1

theorem chunk100_flatten (l : List VectorDocument) : (chunk100 l).flatten = l :=
  (chunk100Go_spec l.length l le_rfl).1

theorem chunk100_ne_nil (l : List VectorDocument) : ∀ b ∈ chunk100 l, b ≠ [] :=
  (chunk100Go_spec l.length l le_rfl).2

theorem chunk100_mem (l : List VectorDocument) (b : List VectorDocument)
    (hb : b ∈ chunk100 l) (d : VectorDocument) (hd : d ∈ b) : d ∈ l := by
  rw [← chunk100_flatten l]
  exact List.mem_flatten.mpr ⟨b, hb, hd⟩

theorem ensureInitialized_noop (cfg : ClientConfig) (w : World)
    (hinit : w.client.isInitialized = true) :
    ensureInitialized cfg w = (w, .ok ()) := by
  unfold ensureInitialized
  rw [if_pos hinit]

theorem addDocuments_batch (cfg : ClientConfig) (gen : String → List ℚ) (name : String)
    (b : List VectorDocument) (w : World) (st : Store)
    (hemb : cfg.embedder = some gen)
    (hinit : w.client.isInitialized = true)
    (hcol : w.client.collection = some name)
    (hstore : serverGet w.server name = some st)
    (hb : b ≠ [])
    (hnone : ∀ d ∈ b, d.embedding = none) :
    addDocuments cfg b w
      = ({ client := w.client,
           server := serverSet w.server name
             (chromaAdd st (b.map (fun d =>
               toStored { d with embedding := some (gen d.content) }))) }, .ok ()) := by
  have hfilter : b.filter (fun d => d.embedding.isNone) = b :=
    List.filter_eq_self.mpr (fun d hd => by rw [hnone d hd]; rfl)
  have hED : embedDocs gen b = b.map (fun d => { d with embedding := some (gen d.content) }) := by
    unfold embedDocs
    apply List.map_congr_left
    intro d hd
    rw [hnone d hd]
  have hlen : ¬ b.length = 0 := fun h => hb (List.length_eq_zero.mp h)
  unfold addDocuments
  rw [ensureInitialized_noop cfg w hinit]
  show (match w.client.collection with
        | none => (w, Except.error "Collection not initialized")
        | some name => _) = _
  rw [hcol]
  show (if b.length = 0 then _ else _) = _
  rw [if_neg hlen]
  show (if (b.filter (fun d => d.embedding.isNone)).length ≠ 0 then _ else _) = _
  rw [if_pos (by rw [hfilter]; exact hlen)]
  show (match cfg.embedder with
        | none => (w, Except.error "Embeddings required but no embedding function provided")
        | some gen => _) = _
  rw [hemb]
  show (({ client := w.client,
           server := serverSet w.server name
             (chromaAdd ((serverGet w.server name).getD [])
               ((embedDocs gen b).map toStored)) } : World), Except.ok ()) = _
  rw [hstore, hED, List.map_map]
  rfl

theorem importBatches_run (cfg : ClientConfig) (gen : String → List ℚ) (name : String)
    (hemb : cfg.embedder = some gen) :
    ∀ (batches : List (List VectorDocument)) (w : World) (st : Store),
      w.client.isInitialized = true →
      w.client.collection = some name →
      serverGet w.server name = some st →
      (∀ b ∈ batches, b ≠ []) →
      (∀ b ∈ batches, ∀ d ∈ b, d.embedding = none) →
      ∃ server2,
        importBatches cfg batches w = ({ client := w.client, server := server2 }, .ok ()) ∧
        serverGet server2 name
          = some (chromaAdd st (batches.flatten.map (fun d =>
              toStored { d with embedding := some (gen d.content) }))) := by
  intro batches
  induction batches with
  | nil =>
    intro w st hinit hcol hstore _ _
    exact ⟨w.server, rfl, hstore⟩
  | cons b rest ih =>
    intro w st hinit hcol hstore hne hnone
    have hA := addDocuments_batch cfg gen name b w st hemb hinit hcol hstore
      (hne b (List.mem_cons_self b rest)) (hnone b (List.mem_cons_self b rest))
    obtain ⟨server2, h1, h2⟩ := ih
      { client := w.client,
        server := serverSet w.server name
          (chromaAdd st (b.map (fun d =>
            toStored { d with embedding := some (gen d.content) }))) }
      (chromaAdd st (b.map (fun d =>
        toStored { d with embedding := some (gen d.content) })))
      hinit hcol (serverGet_set_self _ _ _)
      (fun b2 hb2 => hne b2 (List.mem_cons_of_mem b hb2))
      (fun b2 hb2 => hnone b2 (List.mem_cons_of_mem b hb2))
    refine ⟨server2, ?_, ?_⟩
    · show (match addDocuments cfg b w with
            | (w2, .ok _) => importBatches cfg rest w2
            | (w2, .error e) => (w2, .error e)) = _
      rw [hA]
      exact h1
    · rw [h2]
      congr 1
      rw [List.flatten_cons, List.map_append, chromaAdd_split]

theorem importBackup_run (cfg : ClientConfig) (content : List Char) (clearExisting : Bool)
    (w : World) (hinit : w.client.isInitialized = true) :
    importBackup cfg content clearExisting w =
      (if ((splitOnChar '\n' content).filter (fun l => !(jsTrim l).isEmpty)).length = 0
       then (w, .error "Backup file is empty")
       else
         match jsonParse (((splitOnChar '\n' content).filter
             (fun l => !(jsTrim l).isEmpty)).headD []) with
         | none => (w, .error "Malformed JSON in backup header line")
         | some _ =>
           match parseDocLines (((splitOnChar '\n' content).filter
               (fun l => !(jsTrim l).isEmpty)).drop 1) with
           | none => (w, .error "Malformed JSON in backup document line")
           | some docs =>
             importBatches cfg (chunk100 docs)
               (match clearExisting, w.client.collection with
                | true, some name =>
                  { client := w.client,
                    server := serverSet (serverDelete w.server name) name [] }
                | _, _ => w)) := by
  unfold importBackup
  rw [ensureInitialized_noop cfg w hinit]

theorem exportBackup_run (cfg : ClientConfig) (now : String) (w : World) (name : String)
    (store : Store)
    (hinit : w.client.isInitialized = true)
    (hcol : w.client.collection = some name)
    (hstore : serverGet w.server name = some store) :
    exportBackup cfg now w
      = (w, .ok (jsonEncode (headerJson now (computeStats store now)) ++ '\n'
          :: joinLines (store.map (fun d => jsonEncode (docJson d))))) := by
  unfold exportBackup
  rw [ensureInitialized_noop cfg w hinit]
  show (match w.client.collection with
        | none => (w, Except.error "Collection not initialized")
        | some name => _) = _
  rw [hcol]
  show (w, Except.ok (jsonEncode (headerJson now
      (computeStats ((serverGet w.server name).getD []) now)) ++ '\n'
    :: joinLines (((serverGet w.server name).getD []).map
        (fun d => jsonEncode (docJson d))))) = _
  rw [hstore]
  rfl

theorem storeRoundtrip (gen : String → List ℚ) (sd : Store) :
    (sd.map (fun d0 => docOfJson (docJson d0))).map
        (fun d => toStored { d with embedding := some (gen d.content) })
      = sd.map (fun d0 =>
          ({ id := d0.id, content := d0.content, metadata := d0.metadata,
             embedding := gen d0.content } : StoredDoc)) := by
  rw [List.map_map]
  apply List.map_congr_left
  intro d0 _
  show toStored { docOfJson (docJson d0) with
      embedding := some (gen (docOfJson (docJson d0)).content) } = _
  rw [docOfJson_docJson]
  unfold toStored
  dsimp only
  simp only [StoredDoc.mk.injEq]
  refine ⟨trivial, trivial, ?_, rfl⟩
  rw [List.map_map]
  exact sanitize_inj d0.metadata

/-- C8: on an initialized client, exportBackup succeeds without changing
any state and produces a text whose non-blank lines are exactly the
JSON-encoded header record (version, exportDate, stats) followed by one
JSON-encoded record (id, content, metadata) per stored document; and the
act of importing that text with clearExisting = true reproduces a
collection with exactly the same (id, content, metadata) triples, in the
same order (hence the same set), when the stored ids are distinct. -/
theorem export_import_roundtrip (cfg : ClientConfig) (gen : String → List ℚ)
    (now : String) (w : World) (name : String) (store : Store)
    (hemb : cfg.embedder = some gen)
    (hinit : w.client.isInitialized = true)
    (hcol : w.client.collection = some name)
    (hstore : serverGet w.server name = some store)
    (hnd : (store.map StoredDoc.id).Nodup) :
    ∃ content,
      exportBackup cfg now w = (w, .ok content) ∧
      content = jsonEncode (headerJson now (computeStats store now)) ++ '\n'
        :: joinLines (store.map (fun d => jsonEncode (docJson d))) ∧
      (splitOnChar '\n' content).filter (fun l => !(jsTrim l).isEmpty)
        = jsonEncode (headerJson now (computeStats store now))
          :: store.map (fun d => jsonEncode (docJson d)) ∧
      ∃ server2,
        importBackup cfg content true w
          = ({ client := w.client, server := server2 }, Except.ok ()) ∧
        ∃ store2, serverGet server2 name = some store2 ∧
          store2.map (fun d => (d.id, d.content, d.metadata))
            = store.map (fun d => (d.id, d.content, d.metadata)) := by
  have hLines : (splitOnChar '\n' (jsonEncode (headerJson now (computeStats store now)) ++ '\n'
      :: joinLines (store.map (fun d => jsonEncode (docJson d))))).filter
        (fun l => !(jsTrim l).isEmpty)
      = jsonEncode (headerJson now (computeStats store now))
        :: store.map (fun d => jsonEncode (docJson d)) := by
    apply backupLines
    · exact ⟨_, rfl⟩
    · intro l hl
      obtain ⟨d, _, hld⟩ := List.mem_map.mp hl
      rw [← hld]
      exact ⟨_, rfl⟩
    · exact encode_no_newline.1 _
    · intro l hl
      obtain ⟨d, _, hld⟩ := List.mem_map.mp hl
      rw [← hld]
      exact encode_no_newline.1 _
  obtain ⟨server2, hIB, hS2⟩ := importBatches_run cfg gen name hemb
    (chunk100 (store.map (fun d => docOfJson (docJson d))))
    { client := w.client, server := serverSet (serverDelete w.server name) name [] }
    [] hinit hcol (serverGet_set_self _ _ _)
    (chunk100_ne_nil _)
    (fun b hb d hd => by
      obtain ⟨d0, _, hd0⟩ := List.mem_map.mp (chunk100_mem _ b hb d hd)
      rw [← hd0]
      exact docOfJson_embedding _)
  refine ⟨_, exportBackup_run cfg now w name store hinit hcol hstore, rfl, hLines,
    server2, ?_, ?_⟩
  · rw [importBackup_run cfg _ true w hinit, hLines]
    rw [if_neg (by simp)]
    simp only [List.headD_cons, List.drop_one, List.tail_cons, jsonParse_encode,
      parseDocLines_encode, hcol]
    exact hIB
  · rw [chunk100_flatten, storeRoundtrip] at hS2
    rw [chromaAdd_fresh [] _ (fun d _ x hx => absurd hx (List.not_mem_nil x)) ?_] at hS2
    · rw [List.nil_append] at hS2
      refine ⟨_, hS2, ?_⟩
      rw [List.map_map]
      apply List.map_congr_left
      intro d0 _
      rfl
    · have he : ((store.map (fun d0 =>
          ({ id := d0.id, content := d0.content, metadata := d0.metadata,
             embedding := gen d0.content } : StoredDoc))).map StoredDoc.id)
          = store.map StoredDoc.id := by
        rw [List.map_map]
        apply List.map_congr_left
        intro d0 _
        rfl
      rw [he]
      exact hnd

theorem export_import_roundtrip_witness :
    ∃ content,
      exportBackup sampleCfg "2024" sampleWorld = (sampleWorld, .ok content) ∧
      content = jsonEncode (headerJson "2024" (computeStats sampleStore "2024")) ++ '\n'
        :: joinLines (sampleStore.map (fun d => jsonEncode (docJson d))) ∧
      (splitOnChar '\n' content).filter (fun l => !(jsTrim l).isEmpty)
        = jsonEncode (headerJson "2024" (computeStats sampleStore "2024"))
          :: sampleStore.map (fun d => jsonEncode (docJson d)) ∧
      ∃ server2,
        importBackup sampleCfg content true sampleWorld
          = ({ client := sampleWorld.client, server := server2 }, Except.ok ()) ∧
        ∃ store2, serverGet server2 "c" = some store2 ∧
          store2.map (fun d => (d.id, d.content, d.metadata))
            = sampleStore.map (fun d => (d.id, d.content, d.metadata)) :=
  export_import_roundtrip sampleCfg (fun _ => [(1 : ℚ)]) "2024" sampleWorld "c" sampleStore
    rfl rfl rfl rfl (by decide)

/-- C10: importBackup depends on the backup text only through its
non-blank, non-whitespace-only lines, so blank lines are silently skipped;
and it JSON-parses the header line and every remaining document line
before performing any write, so whenever the header or any non-blank
document line is malformed JSON the call returns an error with the world
(client and collections) exactly unchanged, even when clearExisting = true
was requested. -/
theorem importBackup_parse_before_write (cfg : ClientConfig) (w : World)
    (content content2 : List Char) (clearExisting : Bool)
    (hinit : w.client.isInitialized = true) :
    ((splitOnChar '\n' content).filter (fun l => !(jsTrim l).isEmpty)
        = (splitOnChar '\n' content2).filter (fun l => !(jsTrim l).isEmpty) →
      importBackup cfg content clearExisting w
        = importBackup cfg content2 clearExisting w) ∧
    (∀ ls, ls = (splitOnChar '\n' content).filter (fun l => !(jsTrim l).isEmpty) →
      0 < ls.length →
      (jsonParse (ls.headD []) = none ∨ ∃ l ∈ ls.drop 1, jsonParse l = none) →
      ∃ msg, importBackup cfg content clearExisting w = (w, Except.error msg)) := by
  constructor
  · intro h
    rw [importBackup_run cfg content clearExisting w hinit,
      importBackup_run cfg content2 clearExisting w hinit, h]
  · intro ls hls hpos hbad
    rw [importBackup_run cfg content clearExisting w hinit, ← hls]
    rw [if_neg (by omega)]
    rcases hbad with hh | hdoc
    · rw [hh]
      exact ⟨_, rfl⟩
    · cases hj : jsonParse (ls.headD []) with
      | none => exact ⟨_, rfl⟩
      | some j =>
        rw [(parseDocLines_eq_none_iff _).mpr hdoc]
        exact ⟨_, rfl⟩

theorem importBackup_parse_before_write_witness :
    (importBackup ⟨"c", none⟩ ("x\n\n\x7b\x7d".data) true ⟨⟨true, some "c"⟩, [("c", [])]⟩
        = importBackup ⟨"c", none⟩ ("x\n\x7b\x7d\n \n".data) true
            ⟨⟨true, some "c"⟩, [("c", [])]⟩) ∧
    ∃ msg, importBackup ⟨"c", none⟩ ("x\n\n\x7b\x7d".data) true
        ⟨⟨true, some "c"⟩, [("c", [])]⟩
      = (⟨⟨true, some "c"⟩, [("c", [])]⟩, Except.error msg) :=
  have h := importBackup_parse_before_write ⟨"c", none⟩ ⟨⟨true, some "c"⟩, [("c", [])]⟩
    ("x\n\n\x7b\x7d".data) ("x\n\x7b\x7d\n \n".data) true rfl
  ⟨h.1 (by decide), h.2 _ rfl (by decide) (Or.inl rfl)⟩

end VectorDB
